import Mathlib

/-!
Verification of the keyword-matcher service (Go sources in `src/`).

Strings are modelled as lists of Unicode code points (`List Nat`); `len()`
on a Go string counts UTF-8 bytes, modelled by `blen`.  The matcher's
normalizer, tokenizer, category parser, matcher construction and the tiered
matching algorithm are embedded below, following `stage_processing.go` and
the stage processor of `src/unnamed/part_001` (the variant with the legacy
"dnq" fallback and the `UNKNOWN_<stage>` sentinel, which is the one the
specification describes).
-/

/-- Code points of an ASCII string literal. -/
def str (s : String) : List Nat := s.data.map Char.toNat

/-- Code points of an ASCII string literal where `*` stands for the
apostrophe (code point 39), used for the contraction table's keys. -/
def strA (s : String) : List Nat :=
  s.data.map (fun c => if c = '*' then 39 else c.toNat)

/-- UTF-8 byte count of one code point. -/
def runeBytes (c : Nat) : Nat :=
  if c < 128 then 1 else if c < 2048 then 2 else if c < 65536 then 3 else 4

/-- UTF-8 byte length of a string, Go's `len()` on a string. -/
def blen (s : List Nat) : Nat := (s.map runeBytes).sum

/-- Go `unicode.IsSpace`: the Unicode White_Space code points. -/
def goIsSpace (c : Nat) : Bool :=
  decide ((9 ≤ c ∧ c ≤ 13) ∨ c = 32 ∨ c = 133 ∨ c = 160 ∨ c = 5760 ∨
    (8192 ≤ c ∧ c ≤ 8202) ∨ c = 8232 ∨ c = 8233 ∨ c = 8239 ∨ c = 8287 ∨
    c = 12288)

/-- Go regexp's Perl class `\s`: tab, newline, form feed, carriage return,
space. -/
def isRegSpace (c : Nat) : Bool :=
  decide (c = 9 ∨ c = 10 ∨ c = 12 ∨ c = 13 ∨ c = 32)

/-- Modelled from the spec: "Unicode compatibility decomposition"
(`golang.org/x/text/unicode/norm`'s NFKD, not part of this repository).
Per-code-point compatibility decomposition over a representative table:
no-break space, the precomposed Latin-1 letters, and the fi/fl ligatures;
every other code point is its own decomposition. -/
def nfkdPairs : List (Nat × List Nat) :=
  [(160, [32]),
   (192, [65, 768]), (193, [65, 769]), (194, [65, 770]), (195, [65, 771]),
   (196, [65, 776]), (197, [65, 778]), (199, [67, 807]),
   (200, [69, 768]), (201, [69, 769]), (202, [69, 770]), (203, [69, 776]),
   (204, [73, 768]), (205, [73, 769]), (206, [73, 770]), (207, [73, 776]),
   (209, [78, 771]),
   (210, [79, 768]), (211, [79, 769]), (212, [79, 770]), (213, [79, 771]),
   (214, [79, 776]),
   (217, [85, 768]), (218, [85, 769]), (219, [85, 770]), (220, [85, 776]),
   (221, [89, 769]),
   (224, [97, 768]), (225, [97, 769]), (226, [97, 770]), (227, [97, 771]),
   (228, [97, 776]), (229, [97, 778]), (231, [99, 807]),
   (232, [101, 768]), (233, [101, 769]), (234, [101, 770]), (235, [101, 776]),
   (236, [105, 768]), (237, [105, 769]), (238, [105, 770]), (239, [105, 776]),
   (241, [110, 771]),
   (242, [111, 768]), (243, [111, 769]), (244, [111, 770]), (245, [111, 771]),
   (246, [111, 776]),
   (249, [117, 768]), (250, [117, 769]), (251, [117, 770]), (252, [117, 776]),
   (253, [121, 769]), (255, [121, 776]),
   (64257, [102, 105]), (64258, [102, 108])]

/-- Decomposition of one code point (identity off the table). -/
def nfkdChar (c : Nat) : List Nat := (nfkdPairs.lookup c).getD [c]

/-- The modelled NFKD transform on a whole string. -/
def nfkdStr (s : List Nat) : List Nat := s.flatMap nfkdChar

/-- Modelled from the spec: lowercase conversion (Go's `strings.ToLower`;
the `unicode` case tables are not part of this repository).  ASCII and the
Latin-1 supplement's cased letters. -/
def goToLower (c : Nat) : Nat :=
  if 65 ≤ c ∧ c ≤ 90 then c + 32
  else if 192 ≤ c ∧ c ≤ 222 ∧ c ≠ 215 then c + 32
  else c

/-- Modelled from the spec: "an uppercased form of baseName"
(Go's `strings.ToUpper`; ASCII range). -/
def goToUpper (c : Nat) : Nat := if 97 ≤ c ∧ c ≤ 122 then c - 32 else c

/-- `strings.Map` of the whitespace-to-ASCII-space replacement in
`normalizeText`. -/
def spaceFix (s : List Nat) : List Nat :=
  s.map (fun c => if goIsSpace c then 32 else c)

/-- Go `strings.TrimSpace`: drop Unicode whitespace from both ends. -/
def trimSpace (s : List Nat) : List Nat :=
  ((s.dropWhile goIsSpace).reverse.dropWhile goIsSpace).reverse

/-- Accumulator version of `strings.Fields`: split around runs of
Unicode whitespace, no empty words.  `acc` holds the current word
reversed. -/
def fieldsAux : List Nat → List Nat → List (List Nat)
  | [], acc => if acc = [] then [] else [acc.reverse]
  | c :: cs, acc =>
    if goIsSpace c then
      if acc = [] then fieldsAux cs [] else acc.reverse :: fieldsAux cs []
    else fieldsAux cs (c :: acc)

/-- Go `strings.Fields`. -/
def fields (s : List Nat) : List (List Nat) := fieldsAux s []

/-- Go `strings.Join`. -/
def goJoin (sep : List Nat) : List (List Nat) → List Nat
  | [] => []
  | [w] => w
  | w :: ws => w ++ sep ++ goJoin sep ws

/-- The contraction table of `NewKeywordMatcher` (`*` is the apostrophe). -/
def contractions : List (List Nat × List Nat) :=
  [(strA "i*m", str "i am"), (strA "i*ve", str "i have"),
   (strA "i*ll", str "i will"), (strA "i*d", str "i would"),
   (strA "can*t", str "cannot"), (strA "won*t", str "will not"),
   (strA "don*t", str "do not"), (strA "doesn*t", str "does not"),
   (strA "didn*t", str "did not"), (strA "isn*t", str "is not"),
   (strA "aren*t", str "are not"), (strA "wasn*t", str "was not"),
   (strA "weren*t", str "were not"), (strA "hasn*t", str "has not"),
   (strA "haven*t", str "have not"), (strA "hadn*t", str "had not"),
   (strA "wouldn*t", str "would not"), (strA "shouldn*t", str "should not"),
   (strA "couldn*t", str "could not"), (strA "you*re", str "you are"),
   (strA "you*ve", str "you have"), (strA "you*ll", str "you will"),
   (strA "you*d", str "you would"), (strA "he*s", str "he is"),
   (strA "she*s", str "she is"), (strA "it*s", str "it is"),
   (strA "that*s", str "that is"), (strA "what*s", str "what is"),
   (strA "where*s", str "where is"), (strA "who*s", str "who is"),
   (strA "there*s", str "there is"), (strA "we*re", str "we are"),
   (strA "we*ve", str "we have"), (strA "they*re", str "they are"),
   (strA "they*ve", str "they have")]

/-- Contraction expansion of one word. -/
def expandWord (w : List Nat) : List Nat := (contractions.lookup w).getD w

/-- The final `\s+` to single-space collapse of `normalizeText`
(`regexp.MustCompile` of backslash-s-plus, `ReplaceAllString` with a single
space): every maximal run of `\s` characters becomes one space. -/
def collapseSpace (s : List Nat) : List Nat :=
  s.foldr
    (fun c acc =>
      if isRegSpace c then if acc.head? = some 32 then acc else 32 :: acc
      else c :: acc) []

/-- `normalizeText` of `stage_processing.go`: NFKD, whitespace to ASCII
space, trim and lowercase, contraction expansion over the words, rejoin
with single spaces, collapse whitespace runs. -/
def normalizeText (s : List Nat) : List Nat :=
  collapseSpace (goJoin [32]
    (((fields ((trimSpace (spaceFix (nfkdStr s))).map goToLower)).map
      expandWord)))

/-! ## Tokenizer (`tokenize` of `stage_processing.go`) -/

/-- `tokenize`: individual words, then bigrams, then trigrams, then the
4- and 5-word contiguous spans (the Go loop `for length := 4; length <= 5 &&
length <= len(words)`). -/
def tokenize (t : List Nat) : List (List Nat) :=
  fields t
    ++ (List.range ((fields t).length - 1)).map
        (fun i => (fields t).getD i [] ++ [32] ++ (fields t).getD (i + 1) [])
    ++ (List.range ((fields t).length - 2)).map
        (fun i => (fields t).getD i [] ++ [32] ++ (fields t).getD (i + 1) []
          ++ [32] ++ (fields t).getD (i + 2) [])
    ++ (if 4 ≤ (fields t).length then
          (List.range ((fields t).length - 3)).map
            (fun i => goJoin [32] (((fields t).drop i).take 4))
        else [])
    ++ (if 5 ≤ (fields t).length then
          (List.range ((fields t).length - 4)).map
            (fun i => goJoin [32] (((fields t).drop i).take 5))
        else [])

/-- Spec-side n-gram list: all contiguous `k`-word spans of the text's
words, joined with single spaces, in left-to-right order. -/
def ngramsSpec (k : Nat) (t : List Nat) : List (List Nat) :=
  (List.range ((fields t).length + 1 - k)).map
    (fun i => goJoin [32] (((fields t).drop i).take k))

/-! ## Category parsing (`parseCategoryName`, `generateReturnValue`) -/

/-- Parsed category metadata (`CategoryInfo` of `types.go`). -/
structure CategoryInfo where
  BaseName : List Nat
  Priority : Int
  Stage : List Nat
  IsHardcoded : Bool
  ReturnValue : List Nat
deriving DecidableEq

/-- Accumulator version of `strings.Split` on a one-code-point separator:
empty segments kept, at least one segment always returned. -/
def splitSepAux (sep : Nat) : List Nat → List Nat → List (List Nat)
  | [], acc => [acc.reverse]
  | c :: cs, acc =>
    if c = sep then acc.reverse :: splitSepAux sep cs []
    else splitSepAux sep cs (c :: acc)

/-- Go `strings.Split` on a single-code-point separator. -/
def splitSep (sep : Nat) (s : List Nat) : List (List Nat) := splitSepAux sep s []

/-- ASCII decimal digit. -/
def isDigit (c : Nat) : Bool := decide (48 ≤ c ∧ c ≤ 57)

/-- Value of the leading run of decimal digits; `none` when there is no
leading digit.  Characters after the digits are ignored. -/
def digitsVal (s : List Nat) : Option Nat :=
  let ds := s.takeWhile isDigit
  if ds = [] then none
  else some (ds.foldl (fun a c => a * 10 + (c - 48)) 0)

/-- `ss.SkipSpace` of Go `fmt/scan.go` as used by `Sscanf` (where a newline
in the input is not space): a carriage return followed by a newline is
consumed and the newline then errors, a bare newline errors immediately
("unexpected newline"), any other space code point is skipped, and the
first non-space code point stops the scan.  `none` is the error case. -/
def sscanfSkipSpace : List Nat → Option (List Nat)
  | [] => some []
  | c :: cs =>
    if c = 13 then
      match cs with
      | 10 :: _ => none
      | _ => sscanfSkipSpace cs
    else if c = 10 then none
    else if goIsSpace c then sscanfSkipSpace cs
    else some (c :: cs)

/-- Go `fmt` scanning of the verb `%d` into an `int` under `Sscanf`:
leading whitespace is discarded but a newline is an error, an optional
sign is read, then at least one decimal digit; the token is converted by
`strconv.ParseInt` with bit size 64, so a value outside the `int64` range
is an error; input after the number is ignored by `Sscanf`. -/
def scanInt (s : List Nat) : Option Int :=
  match sscanfSkipSpace s with
  | none => none
  | some s1 =>
    match s1 with
    | 45 :: rest =>
      (digitsVal rest).bind (fun n =>
        if n ≤ 9223372036854775808 then some (-(n : Int)) else none)
    | 43 :: rest =>
      (digitsVal rest).bind (fun n =>
        if n ≤ 9223372036854775807 then some ((n : Int)) else none)
    | _ =>
      (digitsVal s1).bind (fun n =>
        if n ≤ 9223372036854775807 then some ((n : Int)) else none)

/-- `fmt.Sscanf(priorityPart, "p%d", &priority)`: the literal `p` must
match, then `%d` scans an optionally signed integer. -/
def sscanfPd : List Nat → Option Int
  | 112 :: rest => scanInt rest
  | _ => none

/-- `generateReturnValue` of `stage_processing.go`: the fixed synonym
switch over base names, defaulting to the uppercased base name.  The
`stage` argument is accepted and ignored, as in the source. -/
def generateReturnValue (baseName _stage : List Nat) : List Nat :=
  if baseName = str "donotcall" ∨ baseName = str "do_not_call" then
    str "DO_NOT_CALL"
  else if baseName = str "honeypot" then str "HONEYPOT"
  else if baseName = str "answermachine" ∨ baseName = str "answer_machine" then
    str "ANSWER_MACHINE"
  else if baseName = str "interested" then str "INTERESTED"
  else if baseName = str "notinterested" ∨ baseName = str "not_interested" then
    str "NOT_INTERESTED"
  else if baseName = str "dnq" then str "DNQ"
  else if baseName = str "busy" then str "BUSY"
  else if baseName = str "already" then str "ALREADY"
  else if baseName = str "rebuttal" then str "REBUTTAL"
  else if baseName = str "neutral" then str "NEUTRAL"
  else if baseName = str "repeatpitch" ∨ baseName = str "repeat_pitch" then
    str "REPEAT_PITCH"
  else if baseName = str "greetingresponse" ∨
      baseName = str "greeting_response" then str "GREETING_RESPONSE"
  else if baseName = str "notfeelinggood" ∨
      baseName = str "not_feeling_good" then str "NOT_FEELING_GOOD"
  else if baseName = str "donttransfer" ∨ baseName = str "dont_transfer" then
    str "DONT_TRANSFER"
  else baseName.map goToUpper

/-- `parseCategoryName` of `stage_processing.go`: split on underscores,
require at least three segments, require the last segment to start with
`s`, and read the second-to-last segment as `hardcoded` or as `p%d`. -/
def parseCategoryName (name : List Nat) : Option CategoryInfo :=
  let parts := splitSep 95 name
  if parts.length < 3 then none
  else
    let stage := parts.getLastD []
    if stage.head? ≠ some 115 then none
    else
      let priorityPart := parts.getD (parts.length - 2) []
      if priorityPart = str "hardcoded" then
        let base := goJoin [95] (parts.take (parts.length - 2))
        some ⟨base, 0, stage, true, generateReturnValue base stage⟩
      else if priorityPart.head? = some 112 then
        match sscanfPd priorityPart with
        | none => none
        | some n =>
          let base := goJoin [95] (parts.take (parts.length - 2))
          some ⟨base, n, stage, false, generateReturnValue base stage⟩
      else none

/-- The spec's stage pattern `s<digits>`. -/
def sDigitsPattern (w : List Nat) : Prop :=
  w.head? = some 115 ∧ w.tail ≠ [] ∧ ∀ c ∈ w.tail, 48 ≤ c ∧ c ≤ 57

instance (w : List Nat) : Decidable (sDigitsPattern w) :=
  inferInstanceAs (Decidable (w.head? = some 115 ∧ w.tail ≠ [] ∧
    ∀ c ∈ w.tail, 48 ≤ c ∧ c ≤ 57))

/-- Modelled from the spec, then amended to the code's actual acceptance:
a key is accepted exactly when it has at least 3 underscore-delimited
segments, the last segment starts with `s`, and the second-to-last segment
is the literal `hardcoded` or starts with `p` and scans as `p%d`. -/
def goodCategoryKey (name : List Nat) : Bool :=
  let parts := splitSep 95 name
  3 ≤ parts.length ∧
    (parts.getLastD []).head? = some 115 ∧
    (parts.getD (parts.length - 2) [] = str "hardcoded" ∨
      ((parts.getD (parts.length - 2) []).head? = some 112 ∧
        (sscanfPd (parts.getD (parts.length - 2) [])).isSome))

/-- The `CategoryInfo` the amended claim predicts for an accepted key. -/
def expectedCategoryInfo (name : List Nat) : CategoryInfo :=
  let parts := splitSep 95 name
  let stage := parts.getLastD []
  let pp := parts.getD (parts.length - 2) []
  let base := goJoin [95] (parts.take (parts.length - 2))
  if pp = str "hardcoded" then
    ⟨base, 0, stage, true, generateReturnValue base stage⟩
  else
    ⟨base, (sscanfPd pp).getD 0, stage, false, generateReturnValue base stage⟩

/-! ## Matcher data model and the tiered matching algorithm -/

/-- `keywordEntry` of `types.go`: the normalized keyword and its compiled
pattern.  The compiled `\b … \b` regular expression is kept as its source
pattern string; matching against it is the word-boundary-bounded literal
search `regexMatchB` below. -/
structure keywordEntry where
  raw : List Nat
  pattern : List Nat
deriving DecidableEq

/-- `CategoryEntry` of `types.go`. -/
structure CategoryEntry where
  Info : CategoryInfo
  Keywords : List keywordEntry
deriving DecidableEq

/-- `StageCategories` of `types.go`. -/
structure StageCategories where
  Hardcoded : List CategoryEntry
  Prioritized : List CategoryEntry
deriving DecidableEq

/-- `KeywordMatcher`: the stage map (the load timestamp and file path play
no role in matching).  The Go map is modelled as an association list in
the configuration's insertion order. -/
structure KeywordMatcher where
  stageMap : List (List Nat × StageCategories)
deriving DecidableEq

/-- `matchResult` of `types.go`. -/
structure matchResult where
  keyword : List Nat
  matchType : List Nat
  length : Nat
  category : List Nat
  returnValue : List Nat
deriving DecidableEq

/-- The characters `regexp.QuoteMeta` escapes. -/
def regexpSpecials : List Nat :=
  [92, 46, 43, 42, 63, 40, 41, 124, 91, 93, 123, 125, 94, 36]

/-- `regexp.QuoteMeta`: backslash-escape every regexp metacharacter. -/
def quoteMeta (s : List Nat) : List Nat :=
  s.flatMap (fun c => if c ∈ regexpSpecials then [92, c] else [c])

/-- RE2 word characters (the ASCII class `\w`), deciding `\b`. -/
def isWordChar (c : Nat) : Bool :=
  decide ((48 ≤ c ∧ c ≤ 57) ∨ (65 ≤ c ∧ c ≤ 90) ∨ (97 ≤ c ∧ c ≤ 122) ∨
    c = 95)

/-- Whether the character at index `i` is a word character (out of range
counts as non-word). -/
def wordCharAt (s : List Nat) (i : Nat) : Bool :=
  (s[i]?.map isWordChar).getD false

/-- RE2 `\b`: a position where exactly one side is a word character. -/
def boundaryAt (s : List Nat) (i : Nat) : Bool :=
  (if i = 0 then false else wordCharAt s (i - 1)) != wordCharAt s i

/-- Matching of the compiled pattern `\b` ++ `QuoteMeta(raw)` ++ `\b`
against `s`: `raw` occurs literally at some position with word boundaries
on both sides. -/
def regexMatchB (raw s : List Nat) : Bool :=
  (List.range (s.length + 1)).any (fun i =>
    ((s.drop i).take raw.length == raw) && boundaryAt s i &&
      boundaryAt s (i + raw.length))

/-- `prepareKeywordEntries` of `stage_processing.go`: normalize each
keyword, drop those normalizing to the empty string, compile the
word-boundary pattern over the escaped normalized text. -/
def prepareKeywordEntries (keywords : List (List Nat)) : List keywordEntry :=
  keywords.filterMap (fun kw =>
    let normalized := normalizeText kw
    if normalized = [] then none
    else some ⟨normalized, [92, 98] ++ quoteMeta normalized ++ [92, 98]⟩)

/-- The exact tier of `findBestMatch`: first category (in iteration order)
holding a keyword equal to the whole normalized text. -/
def exactScan (normalized : List Nat) (categories : List CategoryEntry) :
    Option matchResult :=
  categories.findSome? (fun catEntry =>
    if catEntry.Keywords.any (fun e => e.raw == normalized) then
      some ⟨normalized, str "exact", blen normalized, catEntry.Info.BaseName,
        catEntry.Info.ReturnValue⟩
    else none)

/-- Phrase-tier candidates of one category, in the evaluation order of the
Go loops (keywords outer, tokens inner). -/
def phraseCandidates (normalized : List Nat) (catEntry : CategoryEntry) :
    List matchResult :=
  catEntry.Keywords.flatMap (fun e =>
    (tokenize normalized).filterMap (fun token =>
      if e.raw = token then
        some ⟨token, str "phrase", blen token, catEntry.Info.BaseName,
          catEntry.Info.ReturnValue⟩
      else none))

/-- Substring-tier candidates of one category, in keyword order. -/
def substringCandidates (normalized : List Nat) (catEntry : CategoryEntry) :
    List matchResult :=
  catEntry.Keywords.filterMap (fun e =>
    if regexMatchB e.raw normalized then
      some ⟨e.raw, str "substring", blen e.raw, catEntry.Info.BaseName,
        catEntry.Info.ReturnValue⟩
    else none)

/-- All phrase- and substring-tier candidates, in the evaluation order of
the second loop of `findBestMatch`: per category, phrase candidates then
substring candidates. -/
def partialCandidates (normalized : List Nat)
    (categories : List CategoryEntry) : List matchResult :=
  categories.flatMap (fun c =>
    phraseCandidates normalized c ++ substringCandidates normalized c)

/-- The running best-so-far update of `findBestMatch`: replace the best
only on strictly greater length. -/
def pickStep (best : Option matchResult) (c : matchResult) :
    Option matchResult :=
  match best with
  | none => some c
  | some b => if b.length < c.length then some c else some b

/-- Folding the best-so-far update over the candidates. -/
def pickBest (cands : List matchResult) : Option matchResult :=
  cands.foldl pickStep none

/-- `findBestMatch` of `stage_processing.go`: normalize once, short-circuit
on the exact tier, otherwise keep the longest phrase/substring candidate,
first encountered winning ties. -/
def findBestMatch (text : List Nat) (categories : List CategoryEntry) :
    Option matchResult :=
  let normalized := normalizeText text
  match exactScan normalized categories with
  | some r => some r
  | none => pickBest (partialCandidates normalized categories)

/-! ## Stage processing (`ProcessStage` of `src/unnamed/part_001`) -/

/-- The priority-group loop of `ProcessStage`, transcribed from the Go
loop: `cp` is `currentPriority`, `acc` is `currentPriorityCategories`.
When the head's priority differs from `cp` the accumulated group is
checked; the final group is checked while processing the last element. -/
def prioLoop (text : List Nat) :
    List CategoryEntry → Int → List CategoryEntry → Option (List Nat)
  | [], _, _ => none
  | c :: rest, cp, acc =>
    if c.Info.Priority ≠ cp then
      match (if 0 < acc.length then findBestMatch text acc else none) with
      | some r => some r.returnValue
      | none =>
        if rest.isEmpty then
          match findBestMatch text [c] with
          | some r => some r.returnValue
          | none => none
        else prioLoop text rest c.Info.Priority [c]
    else
      if rest.isEmpty then
        match findBestMatch text (acc ++ [c]) with
        | some r => some r.returnValue
        | none => none
      else prioLoop text rest cp (acc ++ [c])

/-- `ProcessStage` (the `src/unnamed/part_001` variant): hardcoded tier,
then the priority-group loop, then the legacy "dnq" fallback for stages
`s3`/`s4`, otherwise the `UNKNOWN_<stage>` sentinel. -/
def ProcessStage (km : KeywordMatcher) (text stage : List Nat) : List Nat :=
  match km.stageMap.lookup stage with
  | none => str "UNKNOWN_" ++ stage
  | some stageData =>
    let normalized := normalizeText text
    match (if 0 < stageData.Hardcoded.length then
        findBestMatch text stageData.Hardcoded else none) with
    | some r => r.returnValue
    | none =>
      match prioLoop text stageData.Prioritized (-1) [] with
      | some v => v
      | none =>
        if stage = str "s3" ∨ stage = str "s4" then
          if normalized = str "no" ∨ normalized.take 3 = str "no " then
            match stageData.Prioritized.find?
                (fun c => c.Info.BaseName == str "dnq") with
            | some c => c.Info.ReturnValue
            | none => str "UNKNOWN_" ++ stage
          else str "UNKNOWN_" ++ stage
        else str "UNKNOWN_" ++ stage

/-- Consecutive runs of equal priority, leftmost-maximal: the groups the
loop of `ProcessStage` checks. -/
def groupRuns : List CategoryEntry → List (List CategoryEntry)
  | [] => []
  | c :: rest =>
    match groupRuns rest with
    | [] => [[c]]
    | [] :: gs => [c] :: gs
    | (d :: g) :: gs =>
      if c.Info.Priority = d.Info.Priority then (c :: d :: g) :: gs
      else [c] :: (d :: g) :: gs

/-- First group (in order) on which `findBestMatch` yields a result. -/
def groupFind (text : List Nat) (gs : List (List CategoryEntry)) :
    Option (List Nat) :=
  gs.findSome? (fun g => (findBestMatch text g).map (fun r => r.returnValue))

/-- Scenario-B style fixture: a honeypot hardcoded category and an
interested prioritized category in stage `s2`. -/
def kmScenarioB : KeywordMatcher :=
  ⟨[(str "s2",
    ⟨[⟨⟨str "honeypot", 0, str "s2", true, str "HONEYPOT"⟩,
        prepareKeywordEntries [str "test call"]⟩],
      [⟨⟨str "interested", 1, str "s2", false, str "INTERESTED"⟩,
        prepareKeywordEntries [str "test"]⟩]⟩)]⟩

/-- Scenario-A style fixture: `donotcall` at priority 1 and `interested`
at priority 2 in stage `s3`. -/
def kmScenarioA : KeywordMatcher :=
  ⟨[(str "s3",
    ⟨[],
      [⟨⟨str "donotcall", 1, str "s3", false, str "DO_NOT_CALL"⟩,
        prepareKeywordEntries [str "do not call"]⟩,
       ⟨⟨str "interested", 2, str "s3", false, str "INTERESTED"⟩,
        prepareKeywordEntries [str "please"]⟩]⟩)]⟩

/-- Scenario-C style fixture: only `dnq_p5_s3` with keyword
"not qualified" in stage `s3`. -/
def kmScenarioC : KeywordMatcher :=
  ⟨[(str "s3",
    ⟨[],
      [⟨⟨str "dnq", 5, str "s3", false, str "DNQ"⟩,
        prepareKeywordEntries [str "not qualified"]⟩]⟩)]⟩

/-! ## Matcher construction (`NewKeywordMatcher` of `stage_processing.go`) -/

/-- A decoded JSON value as Go's `interface{}` presents it to
`convertToStringSlice`: a string, an array, an object, or any other
shape (number, boolean, null). -/
inductive GoVal where
  | sVal (s : List Nat) : GoVal
  | aVal (xs : List GoVal) : GoVal
  | oVal (kvs : List (List Nat × GoVal)) : GoVal
  | other : GoVal

/-- `convertToStringSlice`: strings of an array (non-strings dropped),
values of an object (non-strings dropped; the Go map's iteration order is
modelled by the association list's order), a single string, otherwise
nothing. -/
def convertToStringSlice (v : GoVal) : List (List Nat) :=
  match v with
  | GoVal.aVal xs => xs.filterMap (fun x =>
      match x with
      | GoVal.sVal s => some s
      | _ => none)
  | GoVal.oVal kvs => kvs.filterMap (fun kv =>
      match kv.2 with
      | GoVal.sVal s => some s
      | _ => none)
  | GoVal.sVal s => [s]
  | GoVal.other => []

/-- Routing of one parsed category into a stage's lists. -/
def addCategory (sc : StageCategories) (ce : CategoryEntry) :
    StageCategories :=
  if ce.Info.IsHardcoded then ⟨sc.Hardcoded ++ [ce], sc.Prioritized⟩
  else ⟨sc.Hardcoded, sc.Prioritized ++ [ce]⟩

/-- Insert a category into the stage map, creating the stage's entry on
first use (`km.stageMap[info.Stage]` initialization in the source). -/
def addToStageMap :
    List (List Nat × StageCategories) → List Nat → CategoryEntry →
      List (List Nat × StageCategories)
  | [], stage, ce => [(stage, addCategory ⟨[], []⟩ ce)]
  | (k, sc) :: rest, stage, ce =>
    if k = stage then (k, addCategory sc ce) :: rest
    else (k, sc) :: addToStageMap rest stage ce

/-- One iteration of the parsing loop of `NewKeywordMatcher`: skip
unparsable keys, skip categories whose value yields zero strings
(`if len(keywords) == 0 { continue }`), otherwise add the prepared
entries. -/
def buildStep (m : List (List Nat × StageCategories))
    (kv : List Nat × GoVal) : List (List Nat × StageCategories) :=
  match parseCategoryName kv.1 with
  | none => m
  | some info =>
    let keywords := convertToStringSlice kv.2
    if keywords.length = 0 then m
    else addToStageMap m info.Stage ⟨info, prepareKeywordEntries keywords⟩

/-- The final per-stage sort of `NewKeywordMatcher`.  The source sorts
with Go's `sort.Slice` under the comparator `Priority <`; `sort.Slice`
documents no particular order of equal elements, so the sort is modelled
as a sort by the same comparator (see C7). -/
def sortStages (m : List (List Nat × StageCategories)) :
    List (List Nat × StageCategories) :=
  m.map (fun kv => (kv.1, ⟨kv.2.Hardcoded,
    List.insertionSort
      (fun a b => a.Info.Priority ≤ b.Info.Priority) kv.2.Prioritized⟩))

/-- `NewKeywordMatcher`: parse every key in the configuration's order,
route into the stage map, sort each stage's prioritized list. -/
def NewKeywordMatcher (rawKeywords : List (List Nat × GoVal)) :
    KeywordMatcher :=
  ⟨sortStages (rawKeywords.foldl buildStep [])⟩

/-- A category with this metadata and exactly these keyword entries is
present in the stage map. -/
def containsCategory (m : List (List Nat × StageCategories))
    (info : CategoryInfo) (kws : List keywordEntry) : Prop :=
  ∃ sd, m.lookup info.Stage = some sd ∧
    ∃ c ∈ sd.Hardcoded ++ sd.Prioritized, c.Info = info ∧ c.Keywords = kws

/-! ## Idempotence of the normalizer -/

/-- A code point the normalizer leaves alone: already decomposed, already
lowercase, and whitespace only if it is the ASCII space. -/
def goodCh (c : Nat) : Prop :=
  nfkdChar c = [c] ∧ goToLower c = c ∧ (goIsSpace c = true → c = 32)

instance (c : Nat) : Decidable (goodCh c) :=
  inferInstanceAs (Decidable (nfkdChar c = [c] ∧ goToLower c = c ∧
    (goIsSpace c = true → c = 32)))

/-- The strings the collapse step leaves unchanged: all regexp whitespace
is the ASCII space and no two spaces are adjacent. -/
def okString (t : List Nat) : Prop :=
  (∀ c ∈ t, isRegSpace c = true → c = 32) ∧
    List.Chain' (fun a b => ¬(a = 32 ∧ b = 32)) t

/-- No two adjacent ASCII spaces. -/
def noDoubleSpace : List Nat → Bool
  | [] => true
  | [_] => true
  | a :: b :: rest => !(a == 32 && b == 32) && noDoubleSpace (b :: rest)

/-- A word of the normalizer's output: nonempty, made of settled
characters, no two adjacent spaces, and no space at either end. -/
def wordOK (w : List Nat) : Prop :=
  w ≠ [] ∧ (∀ c ∈ w, goodCh c) ∧ noDoubleSpace w = true ∧
    w.head? ≠ some 32 ∧ w.getLast? ≠ some 32

instance (w : List Nat) : Decidable (wordOK w) :=
  inferInstanceAs (Decidable (w ≠ [] ∧ (∀ c ∈ w, goodCh c) ∧
    noDoubleSpace w = true ∧ w.head? ≠ some 32 ∧ w.getLast? ≠ some 32))

/-- A word a second normalization pass leaves unchanged: its fields carry
no contraction keys and rejoin to the word itself. -/
def wordStable (w : List Nat) : Prop :=
  (∀ u ∈ fields w, contractions.lookup u = none) ∧
    goJoin [32] (fields w) = w ∧ fields w ≠ []

instance (w : List Nat) : Decidable (wordStable w) :=
  inferInstanceAs (Decidable ((∀ u ∈ fields w, contractions.lookup u = none) ∧
    goJoin [32] (fields w) = w ∧ fields w ≠ []))

/-- The words of the normalizer's output. -/
def normWords (s : List Nat) : List (List Nat) :=
  (fields ((trimSpace (spaceFix (nfkdStr s))).map goToLower)).map expandWord

/-- The invariant of stored keyword entries: non-empty raw text, the raw
text is a fixed point of the normalizer, and the compiled pattern is the
word-boundary-bounded escaped literal of the raw text. -/
def entryWellFormed (e : keywordEntry) : Prop :=
  e.raw ≠ [] ∧ normalizeText e.raw = e.raw ∧
    e.pattern = [92, 98] ++ quoteMeta e.raw ++ [92, 98]

/-- Every keyword entry reachable in a stage map satisfies the
invariant. -/
def matcherEntriesWF (m : List (List Nat × StageCategories)) : Prop :=
  ∀ kv ∈ m, ∀ c ∈ kv.2.Hardcoded ++ kv.2.Prioritized, ∀ e ∈ c.Keywords,
    entryWellFormed e

example : normalizeText (str "  Hello   WORLD ") = str "hello world" := by decide

example : normalizeText (strA "I*m  BUSY") = str "i am busy" := by decide

example : normalizeText [192, 9, 66] = [97, 768, 32, 98] := by decide

example : normalizeText (normalizeText (strA "Don*t   CALL me")) =
    normalizeText (strA "Don*t   CALL me") := by decide

lemma map_range_getD (l : List (List Nat)) :
    (List.range l.length).map (fun i => l.getD i []) = l := by
  induction l with
  | nil => simp
  | cons a l ih =>
    rw [List.length_cons, List.range_succ_eq_map, List.map_cons, List.map_map]
    refine congrArg₂ (· :: ·) (by simp) ?_
    rw [show ((fun i => (a :: l).getD i []) ∘ Nat.succ) =
        (fun i => l.getD i []) from funext fun i => by simp, ih]

lemma drop_take_one (l : List (List Nat)) (i : Nat) (h : i < l.length) :
    (l.drop i).take 1 = [l.getD i []] := by
  rw [List.drop_eq_getElem_cons h, List.take_succ_cons, List.take_zero,
    List.getD_eq_getElem l [] h]

lemma drop_take_two (l : List (List Nat)) (i : Nat) (h : i + 1 < l.length) :
    (l.drop i).take 2 = [l.getD i [], l.getD (i + 1) []] := by
  rw [List.drop_eq_getElem_cons (show i < l.length by omega),
    List.take_succ_cons, List.drop_eq_getElem_cons h, List.take_succ_cons,
    List.take_zero, List.getD_eq_getElem l [] h,
    List.getD_eq_getElem l [] (show i < l.length by omega)]

lemma drop_take_three (l : List (List Nat)) (i : Nat) (h : i + 2 < l.length) :
    (l.drop i).take 3 =
      [l.getD i [], l.getD (i + 1) [], l.getD (i + 2) []] := by
  rw [List.drop_eq_getElem_cons (show i < l.length by omega),
    List.take_succ_cons,
    List.drop_eq_getElem_cons (show i + 1 < l.length by omega),
    List.take_succ_cons, List.drop_eq_getElem_cons h, List.take_succ_cons,
    List.take_zero, List.getD_eq_getElem l [] h,
    List.getD_eq_getElem l [] (show i < l.length by omega),
    List.getD_eq_getElem l [] (show i + 1 < l.length by omega)]

lemma tokenize_ngram_aux (ws : List (List Nat)) :
    ws
      ++ (List.range (ws.length - 1)).map
          (fun i => ws.getD i [] ++ [32] ++ ws.getD (i + 1) [])
      ++ (List.range (ws.length - 2)).map
          (fun i => ws.getD i [] ++ [32] ++ ws.getD (i + 1) [] ++ [32]
            ++ ws.getD (i + 2) [])
      ++ (if 4 ≤ ws.length then
            (List.range (ws.length - 3)).map
              (fun i => goJoin [32] ((ws.drop i).take 4))
          else [])
      ++ (if 5 ≤ ws.length then
            (List.range (ws.length - 4)).map
              (fun i => goJoin [32] ((ws.drop i).take 5))
          else []) =
    (List.range (ws.length + 1 - 1)).map
        (fun i => goJoin [32] ((ws.drop i).take 1))
      ++ (List.range (ws.length + 1 - 2)).map
          (fun i => goJoin [32] ((ws.drop i).take 2))
      ++ (List.range (ws.length + 1 - 3)).map
          (fun i => goJoin [32] ((ws.drop i).take 3))
      ++ (if 4 ≤ ws.length then
            (List.range (ws.length + 1 - 4)).map
              (fun i => goJoin [32] ((ws.drop i).take 4))
          else [])
      ++ (if 5 ≤ ws.length then
            (List.range (ws.length + 1 - 5)).map
              (fun i => goJoin [32] ((ws.drop i).take 5))
          else []) := by
  have h1 : (List.range (ws.length + 1 - 1)).map
      (fun i => goJoin [32] ((ws.drop i).take 1)) = ws := by
    rw [show ws.length + 1 - 1 = ws.length from by omega]
    calc (List.range ws.length).map (fun i => goJoin [32] ((ws.drop i).take 1))
        = (List.range ws.length).map (fun i => ws.getD i []) := by
          refine List.map_congr_left fun i hi => ?_
          rw [drop_take_one ws i (List.mem_range.mp hi)]
          rfl
      _ = ws := map_range_getD ws
  have h2 : (List.range (ws.length - 1)).map
      (fun i => ws.getD i [] ++ [32] ++ ws.getD (i + 1) []) =
      (List.range (ws.length + 1 - 2)).map
        (fun i => goJoin [32] ((ws.drop i).take 2)) := by
    rw [show ws.length + 1 - 2 = ws.length - 1 from by omega]
    refine List.map_congr_left fun i hi => ?_
    have hi' : i < ws.length - 1 := List.mem_range.mp hi
    rw [drop_take_two ws i (by omega)]
    rfl
  have h3 : (List.range (ws.length - 2)).map
      (fun i => ws.getD i [] ++ [32] ++ ws.getD (i + 1) [] ++ [32]
        ++ ws.getD (i + 2) []) =
      (List.range (ws.length + 1 - 3)).map
        (fun i => goJoin [32] ((ws.drop i).take 3)) := by
    rw [show ws.length + 1 - 3 = ws.length - 2 from by omega]
    refine List.map_congr_left fun i hi => ?_
    have hi' : i < ws.length - 2 := List.mem_range.mp hi
    rw [drop_take_three ws i (by omega)]
    simp [goJoin, List.append_assoc]
  rw [h1, h2, h3, show ws.length + 1 - 4 = ws.length - 3 from by omega,
    show ws.length + 1 - 5 = ws.length - 4 from by omega]

/-- C8: for a normalized text of `n` words, `tokenize` returns all `n`
unigrams, then the `n-1` bigrams, then the `n-2` trigrams, then the
contiguous 4-word spans when `n ≥ 4` and the 5-word spans when `n ≥ 5`, in
this order and without deduplication; hence for `n ≥ 5` the token count is
`n + (n-1) + (n-2) + (n-3) + (n-4)`. -/
theorem tokenize_ngram_structure (t : List Nat) :
    tokenize t =
      ngramsSpec 1 t ++ ngramsSpec 2 t ++ ngramsSpec 3 t
        ++ (if 4 ≤ (fields t).length then ngramsSpec 4 t else [])
        ++ (if 5 ≤ (fields t).length then ngramsSpec 5 t else []) ∧
    (5 ≤ (fields t).length →
      (tokenize t).length =
        (fields t).length + ((fields t).length - 1) + ((fields t).length - 2)
          + ((fields t).length - 3) + ((fields t).length - 4)) := by
  constructor
  · exact tokenize_ngram_aux (fields t)
  · intro h
    unfold tokenize
    rw [if_pos (show 4 ≤ (fields t).length by omega),
      if_pos (show 5 ≤ (fields t).length by omega)]
    simp only [List.length_append, List.length_map, List.length_range]

/-- Witness for C8 at a concrete five-word text. -/
theorem tokenize_ngram_structure_witness :
    5 ≤ (fields (str "a b c d e")).length ∧
    (tokenize (str "a b c d e")).length = 5 + 4 + 3 + 2 + 1 :=
  ⟨by decide, by
    have h := tokenize_ngram_structure (str "a b c d e")
    rw [h.2 (by decide)]
    decide⟩

example : tokenize (str "a b") =
    ngramsSpec 1 (str "a b") ++ ngramsSpec 2 (str "a b") := by decide

example : tokenize (str "a b c d") =
    ngramsSpec 1 (str "a b c d") ++ ngramsSpec 2 (str "a b c d")
      ++ ngramsSpec 3 (str "a b c d") ++ ngramsSpec 4 (str "a b c d") := by
  decide

example : parseCategoryName (str "donotcall_p1_s3") =
    some ⟨str "donotcall", 1, str "s3", false, str "DO_NOT_CALL"⟩ := by decide

example : parseCategoryName (str "honeypot_hardcoded_s2") =
    some ⟨str "honeypot", 0, str "s2", true, str "HONEYPOT"⟩ := by decide

example : parseCategoryName (str "foo_bar_baz") = none := by decide

example : parseCategoryName (str "a_b") = none := by decide

example : sscanfPd (str "p9223372036854775807") =
    some 9223372036854775807 := by decide

example : sscanfPd (str "p9223372036854775808") = none := by decide

example : sscanfPd (str "p-9223372036854775808") =
    some (-9223372036854775808) := by decide

example : sscanfPd (str "p-9223372036854775809") = none := by decide

example : parseCategoryName (str "a_p9999999999999999999_s1") = none := by
  decide

example : sscanfPd (112 :: 32 :: str "3") = some 3 := by decide

example : sscanfPd (112 :: 10 :: str "3") = none := by decide

example : sscanfPd (112 :: 13 :: 10 :: str "3") = none := by decide

example : sscanfPd (112 :: 13 :: str "3") = some 3 := by decide

/-- Counterexample to C5: the key `a_p-1_sx` parses successfully although
its last segment `sx` does not match `s<digits>`, the priority token `p-1`
is not a `p<digits>` token, and the resulting priority is negative. -/
theorem parse_category_c5_cex :
    parseCategoryName (str "a_p-1_sx") =
      some ⟨str "a", -1, str "sx", false, str "A"⟩ ∧
    ¬ sDigitsPattern (str "sx") ∧ ((-1 : Int) < 0) := by decide

/-- C5 amended: `parseCategoryName` returns a `CategoryInfo` exactly when
the key has at least 3 underscore-delimited segments, the last segment
starts with `s`, and the second-to-last segment is `hardcoded` or scans as
`p%d` (an optionally signed decimal integer fitting in `int64`, with
leading spaces but not newlines skipped and trailing characters ignored);
on success the priority is the scanned integer (0 for hardcoded), the
stage is the last segment, and the base name is the underscore-join of the
remaining leading segments. -/
theorem parse_category_characterization (name : List Nat) :
    parseCategoryName name =
      if goodCategoryKey name then some (expectedCategoryInfo name)
      else none := by
  unfold parseCategoryName goodCategoryKey expectedCategoryInfo
  by_cases hlen : (splitSep 95 name).length < 3
  · rw [if_pos hlen, if_neg]
    simp only [decide_eq_true_eq, not_and]
    intro h
    omega
  · rw [if_neg hlen]
    by_cases hs : ((splitSep 95 name).getLastD []).head? = some 115
    · rw [if_neg (by simpa using hs)]
      by_cases hh : (splitSep 95 name).getD ((splitSep 95 name).length - 2) []
          = str "hardcoded"
      · rw [if_pos hh, if_pos, if_pos hh]
        simp only [decide_eq_true_eq]
        exact ⟨by omega, hs, Or.inl hh⟩
      · rw [if_neg hh]
        by_cases hp : ((splitSep 95 name).getD ((splitSep 95 name).length - 2)
            []).head? = some 112
        · rw [if_pos hp]
          cases hscan : sscanfPd ((splitSep 95 name).getD
              ((splitSep 95 name).length - 2) []) with
          | none =>
            rw [if_neg]
            simp only [decide_eq_true_eq, not_and]
            intro _ _
            rintro (h | h)
            · exact hh h
            · rw [hscan] at h
              simp at h
          | some n =>
            rw [if_pos, if_neg hh, hscan]
            · rfl
            · simp only [decide_eq_true_eq]
              exact ⟨by omega, hs, Or.inr ⟨hp, by rw [hscan]; rfl⟩⟩
        · rw [if_neg hp, if_neg]
          simp only [decide_eq_true_eq, not_and]
          intro _ _
          rintro (h | h)
          · exact hh h
          · exact hp h.1
    · rw [if_pos (by simpa using hs), if_neg]
      simp only [decide_eq_true_eq, not_and]
      intro _ h
      exact absurd h hs

example : regexMatchB (str "call") (str "please call me") = true := by decide

example : regexMatchB (str "call") (str "recall me") = false := by decide

example : regexMatchB (str "no") (str "normal") = false := by decide

lemma find?_congr_mem {p q : matchResult → Bool} :
    ∀ {l : List matchResult}, (∀ a ∈ l, p a = q a) → l.find? p = l.find? q := by
  intro l
  induction l with
  | nil => simp
  | cons a l ih =>
    intro h
    rw [List.find?_cons, List.find?_cons, h a (by simp)]
    cases q a
    · exact ih fun x hx => h x (by simp [hx])
    · rfl

lemma find?_head_true {α : Type} (p : α → Bool) (a : α) (l : List α)
    (h : p a = true) : (a :: l).find? p = some a := by
  rw [List.find?_cons, h]

lemma find?_head_false {α : Type} (p : α → Bool) (a : α) (l : List α)
    (h : p a = false) : (a :: l).find? p = l.find? p := by
  rw [List.find?_cons, h]

lemma pickBest_go_spec :
    ∀ (l : List matchResult) (b : matchResult),
      List.foldl pickStep (some b) l =
        (b :: l).find? (fun c => (b :: l).all (fun d => d.length ≤ c.length)) := by
  intro l
  induction l with
  | nil => simp
  | cons c l ih =>
    intro b
    rw [List.foldl_cons]
    show List.foldl pickStep (pickStep (some b) c) l = _
    by_cases hc : b.length < c.length
    · rw [show pickStep (some b) c = some c from by
        simp [pickStep, hc], ih c]
      have hb : ((b :: c :: l).all fun d => decide (d.length ≤ b.length))
          = false := by
        simp only [List.all_cons, Bool.and_eq_false_iff]
        right; left
        simpa using Nat.not_le.2 hc
      rw [find?_head_false
        (fun x => (b :: c :: l).all fun d => decide (d.length ≤ x.length))
        b (c :: l) hb]
      refine find?_congr_mem fun a _ => ?_
      by_cases h2 : c.length ≤ a.length
      · have hba : b.length ≤ a.length := by omega
        simp [List.all_cons, h2, hba]
      · simp [List.all_cons, h2]
    · rw [show pickStep (some b) c = some b from by
        simp [pickStep, hc], ih b]
      have hcb : c.length ≤ b.length := by omega
      by_cases h3 : l.all (fun d => decide (d.length ≤ b.length)) = true
      · have l1 : ((b :: l).all fun d => decide (d.length ≤ b.length))
            = true := by simp [List.all_cons, h3]
        have l2 : ((b :: c :: l).all fun d => decide (d.length ≤ b.length))
            = true := by simp [List.all_cons, hcb, h3]
        rw [find?_head_true
          (fun x => (b :: l).all fun d => decide (d.length ≤ x.length))
          b l l1, find?_head_true
          (fun x => (b :: c :: l).all fun d => decide (d.length ≤ x.length))
          b (c :: l) l2]
      · have hl3 : l.all (fun d => decide (d.length ≤ b.length)) = false :=
          Bool.eq_false_iff.2 h3
        have l1 : ((b :: l).all fun d => decide (d.length ≤ b.length))
            = false := by simp [List.all_cons, hl3]
        have l2 : ((b :: c :: l).all fun d => decide (d.length ≤ b.length))
            = false := by simp [List.all_cons, hl3]
        have hcl : l.all (fun d => decide (d.length ≤ c.length)) = false := by
          rw [Bool.eq_false_iff]
          intro hall
          refine h3 ?_
          rw [List.all_eq_true] at hall ⊢
          exact fun d hd => by
            have := hall d hd
            simp only [decide_eq_true_eq] at this ⊢
            omega
        have l3 : ((b :: c :: l).all fun d => decide (d.length ≤ c.length))
            = false := by simp [List.all_cons, hcl]
        rw [find?_head_false
          (fun x => (b :: l).all fun d => decide (d.length ≤ x.length))
          b l l1, find?_head_false
          (fun x => (b :: c :: l).all fun d => decide (d.length ≤ x.length))
          b (c :: l) l2, find?_head_false
          (fun x => (b :: c :: l).all fun d => decide (d.length ≤ x.length))
          c l l3]
        refine find?_congr_mem fun a _ => ?_
        by_cases h2 : b.length ≤ a.length
        · have hca : c.length ≤ a.length := by omega
          simp [List.all_cons, h2, hca]
        · simp [List.all_cons, h2]

/-- `pickBest` returns the first candidate of maximal length. -/
lemma pickBest_spec (l : List matchResult) :
    pickBest l = l.find? (fun c => l.all (fun d => d.length ≤ c.length)) := by
  cases l with
  | nil => rfl
  | cons c l =>
    show List.foldl pickStep (pickStep none c) l = _
    rw [show pickStep none c = some c from rfl]
    exact pickBest_go_spec l c

/-- C1: whenever `findBestMatch` does not return via the exact tier, it
returns the first phrase- or substring-tier candidate (in evaluation
order) whose matched string's byte length is maximal among all candidates:
longer matched strings win regardless of tier or category, and the first
encountered wins among equal lengths. -/
theorem find_best_match_longest (text : List Nat)
    (categories : List CategoryEntry)
    (h : exactScan (normalizeText text) categories = none) :
    findBestMatch text categories =
      (partialCandidates (normalizeText text) categories).find?
        (fun c => (partialCandidates (normalizeText text) categories).all
          (fun d => d.length ≤ c.length)) := by
  simp only [findBestMatch]
  rw [h]
  exact pickBest_spec _

/-- Witness for C1: keywords `call` and `do not call` in one category; on
"please do not call me" the exact tier misses and the longer candidate
`do not call` is selected. -/
theorem find_best_match_longest_witness :
    (exactScan (normalizeText (str "please do not call me"))
        [⟨⟨str "donotcall", 1, str "s3", false, str "DO_NOT_CALL"⟩,
          prepareKeywordEntries [str "call", str "do not call"]⟩] = none) ∧
    findBestMatch (str "please do not call me")
        [⟨⟨str "donotcall", 1, str "s3", false, str "DO_NOT_CALL"⟩,
          prepareKeywordEntries [str "call", str "do not call"]⟩] =
      some ⟨str "do not call", str "phrase", 11, str "donotcall",
        str "DO_NOT_CALL"⟩ := by
  refine ⟨by decide, ?_⟩
  rw [find_best_match_longest _ _ (by decide)]
  decide

lemma groupRuns_cons (c : CategoryEntry) (rest : List CategoryEntry) :
    groupRuns (c :: rest) =
      (c :: rest.takeWhile (fun d => d.Info.Priority == c.Info.Priority)) ::
        groupRuns (rest.dropWhile
          (fun d => d.Info.Priority == c.Info.Priority)) := by
  induction rest generalizing c with
  | nil => rfl
  | cons d rest2 ih =>
    show (match groupRuns (d :: rest2) with
      | [] => [[c]]
      | [] :: gs => [c] :: gs
      | (d0 :: g) :: gs =>
        if c.Info.Priority = d0.Info.Priority then (c :: d0 :: g) :: gs
        else [c] :: (d0 :: g) :: gs) = _
    rw [ih d]
    show (if c.Info.Priority = d.Info.Priority then
        (c :: d :: rest2.takeWhile
          (fun e => e.Info.Priority == d.Info.Priority)) ::
          groupRuns (rest2.dropWhile
            (fun e => e.Info.Priority == d.Info.Priority))
      else [c] :: (d :: rest2.takeWhile
          (fun e => e.Info.Priority == d.Info.Priority)) ::
          groupRuns (rest2.dropWhile
            (fun e => e.Info.Priority == d.Info.Priority))) = _
    by_cases hp : c.Info.Priority = d.Info.Priority
    · have hdt : (d.Info.Priority == c.Info.Priority) = true := by simp [hp]
      have hpred : (fun e : CategoryEntry => e.Info.Priority == d.Info.Priority)
          = (fun e : CategoryEntry => e.Info.Priority == c.Info.Priority) := by
        funext e
        rw [hp]
      rw [if_pos hp, List.takeWhile_cons, List.dropWhile_cons, hdt, hpred]
      simp
    · have hdt : (d.Info.Priority == c.Info.Priority) = false := by
        simp only [beq_eq_false_iff_ne, ne_eq]
        exact fun h => hp h.symm
      rw [if_neg hp, List.takeWhile_cons, List.dropWhile_cons, hdt]
      simp only [Bool.false_eq_true, if_false]
      rw [ih d]

lemma prioLoop_run (text : List Nat) :
    ∀ (cats : List CategoryEntry) (cp : Int) (acc : List CategoryEntry),
      acc ≠ [] → cats ≠ [] →
      prioLoop text cats cp acc =
        (match findBestMatch text
            (acc ++ cats.takeWhile (fun d => d.Info.Priority == cp)) with
         | some r => some r.returnValue
         | none => groupFind text (groupRuns
            (cats.dropWhile (fun d => d.Info.Priority == cp)))) := by
  intro cats
  induction cats with
  | nil => intro cp acc _ h2; exact absurd rfl h2
  | cons c rest ih =>
    intro cp acc hacc _
    by_cases hp : c.Info.Priority = cp
    · have hct : (c.Info.Priority == cp) = true := by simp [hp]
      rw [List.takeWhile_cons, List.dropWhile_cons, hct, if_pos rfl,
        if_pos rfl]
      show (if c.Info.Priority ≠ cp then _ else _) = _
      rw [if_neg (by simpa using hp)]
      cases rest with
      | nil =>
        show (match findBestMatch text (acc ++ [c]) with
          | some r => some r.returnValue
          | none => none) = _
        simp only [List.takeWhile_nil, List.dropWhile_nil]
        cases findBestMatch text (acc ++ [c]) <;> rfl
      | cons r2 rest2 =>
        show prioLoop text (r2 :: rest2) cp (acc ++ [c]) = _
        rw [ih cp (acc ++ [c]) (by simp) (by simp)]
        rw [List.append_assoc]
        rfl
    · have hct : (c.Info.Priority == cp) = false := by simp [hp]
      rw [List.takeWhile_cons, List.dropWhile_cons, hct]
      simp only [Bool.false_eq_true, if_false, List.append_nil]
      show (if c.Info.Priority ≠ cp then _ else _) = _
      rw [if_pos (by simpa using hp)]
      rw [if_pos (by simpa [List.length_pos] using hacc)]
      cases hfb : findBestMatch text acc with
      | some r => rfl
      | none =>
        rw [groupRuns_cons]
        cases rest with
        | nil =>
          show (match findBestMatch text [c] with
            | some r => some r.returnValue
            | none => none) = _
          simp only [List.takeWhile_nil, List.dropWhile_nil]
          show _ = List.findSome? _ ([c] :: groupRuns [])
          rw [List.findSome?_cons]
          cases findBestMatch text [c] <;> rfl
        | cons r2 rest2 =>
          show prioLoop text (r2 :: rest2) c.Info.Priority [c] = _
          rw [ih c.Info.Priority [c] (by simp) (by simp),
            List.singleton_append]
          show _ = List.findSome? _ ((c :: _) :: _)
          rw [List.findSome?_cons]
          cases findBestMatch text (c :: (r2 :: rest2).takeWhile
            (fun d => d.Info.Priority == c.Info.Priority)) <;> rfl

/-- The Go loop is exactly the groupwise first-match over consecutive
equal-priority runs. -/
lemma prioLoop_eq_groupFind (text : List Nat) (cats : List CategoryEntry) :
    prioLoop text cats (-1) [] = groupFind text (groupRuns cats) := by
  cases cats with
  | nil => rfl
  | cons c rest =>
    rw [groupRuns_cons]
    have step : prioLoop text (c :: rest) (-1) [] =
        (if rest.isEmpty then
          match findBestMatch text [c] with
          | some r => some r.returnValue
          | none => none
        else prioLoop text rest c.Info.Priority [c]) := by
      by_cases hp : c.Info.Priority = (-1 : Int)
      · show (if c.Info.Priority ≠ (-1 : Int) then _ else _) = _
        rw [if_neg (by simpa using hp)]
        rw [show ((-1 : Int)) = c.Info.Priority from hp.symm]
        rfl
      · show (if c.Info.Priority ≠ (-1 : Int) then _ else _) = _
        rw [if_pos (by simpa using hp)]
        rfl
    rw [step]
    cases rest with
    | nil =>
      simp only [List.takeWhile_nil, List.dropWhile_nil]
      show (match findBestMatch text [c] with
        | some r => some r.returnValue
        | none => none) = List.findSome? _ ([c] :: groupRuns [])
      rw [List.findSome?_cons]
      cases findBestMatch text [c] <;> rfl
    | cons r2 rest2 =>
      show prioLoop text (r2 :: rest2) c.Info.Priority [c] = _
      rw [prioLoop_run text (r2 :: rest2) c.Info.Priority [c] (by simp)
        (by simp), List.singleton_append]
      show _ = List.findSome? _ ((c :: _) :: _)
      rw [List.findSome?_cons]
      cases findBestMatch text (c :: (r2 :: rest2).takeWhile
        (fun d => d.Info.Priority == c.Info.Priority)) <;> rfl

lemma findBestMatch_nil (text : List Nat) : findBestMatch text [] = none := rfl

lemma findBestMatch_label_mem (text : List Nat) (cats : List CategoryEntry)
    (r : matchResult) (h : findBestMatch text cats = some r) :
    ∃ c ∈ cats, r.returnValue = c.Info.ReturnValue := by
  simp only [findBestMatch] at h
  cases he : exactScan (normalizeText text) cats with
  | some r0 =>
    rw [he] at h
    have hr : r0 = r := by simpa using h
    unfold exactScan at he
    obtain ⟨a, ha, hfa⟩ := List.exists_of_findSome?_eq_some he
    refine ⟨a, ha, ?_⟩
    by_cases hany : a.Keywords.any (fun e => e.raw == normalizeText text)
    · rw [if_pos hany] at hfa
      have h2 : (⟨normalizeText text, str "exact", blen (normalizeText text),
          a.Info.BaseName, a.Info.ReturnValue⟩ : matchResult) = r0 := by
        injection hfa
      rw [← hr, ← h2]
    · rw [if_neg hany] at hfa
      exact absurd hfa (by simp)
  | none =>
    rw [he] at h
    have h2 : pickBest (partialCandidates (normalizeText text) cats)
        = some r := by simpa using h
    rw [pickBest_spec] at h2
    have hmem := List.mem_of_find?_eq_some h2
    unfold partialCandidates at hmem
    rw [List.mem_flatMap] at hmem
    obtain ⟨c, hc, hrc⟩ := hmem
    refine ⟨c, hc, ?_⟩
    rcases List.mem_append.mp hrc with hph | hsub
    · unfold phraseCandidates at hph
      rw [List.mem_flatMap] at hph
      obtain ⟨e, _, hrf⟩ := hph
      rw [List.mem_filterMap] at hrf
      obtain ⟨tok, _, hif⟩ := hrf
      by_cases heq : e.raw = tok
      · rw [if_pos heq] at hif
        have h3 : (⟨tok, str "phrase", blen tok, c.Info.BaseName,
            c.Info.ReturnValue⟩ : matchResult) = r := by injection hif
        rw [← h3]
      · rw [if_neg heq] at hif
        exact absurd hif (by simp)
    · unfold substringCandidates at hsub
      rw [List.mem_filterMap] at hsub
      obtain ⟨e, _, hif⟩ := hsub
      by_cases heq : regexMatchB e.raw (normalizeText text) = true
      · rw [if_pos heq] at hif
        have h3 : (⟨e.raw, str "substring", blen e.raw, c.Info.BaseName,
            c.Info.ReturnValue⟩ : matchResult) = r := by injection hif
        rw [← h3]
      · rw [if_neg heq] at hif
        exact absurd hif (by simp)

/-- C2: when any hardcoded category of the stage matches under
`findBestMatch`, `ProcessStage` returns that hardcoded result's label —
the label of one of the stage's hardcoded categories — and never consults
the prioritized categories. -/
theorem process_stage_hardcoded_first (km : KeywordMatcher)
    (text stage : List Nat) (sd : StageCategories) (r : matchResult)
    (hlk : km.stageMap.lookup stage = some sd)
    (hr : findBestMatch text sd.Hardcoded = some r) :
    ProcessStage km text stage = r.returnValue ∧
    ∃ c ∈ sd.Hardcoded, r.returnValue = c.Info.ReturnValue := by
  constructor
  · simp only [ProcessStage, hlk]
    have hne : sd.Hardcoded ≠ [] := by
      intro hnil
      rw [hnil, findBestMatch_nil] at hr
      exact Option.noConfusion hr
    rw [if_pos (by simpa [List.length_pos] using hne), hr]
  · exact findBestMatch_label_mem text sd.Hardcoded r hr

/-- Witness for C2: in stage `s2` with hardcoded `honeypot` (keyword
"test call") and prioritized `interested` (keyword "test"), the input
"this is a test call" is classified `HONEYPOT`. -/
theorem process_stage_hardcoded_first_witness :
    ProcessStage kmScenarioB (str "this is a test call") (str "s2")
      = str "HONEYPOT" := by
  have h := process_stage_hardcoded_first kmScenarioB
    (str "this is a test call") (str "s2")
    ⟨[⟨⟨str "honeypot", 0, str "s2", true, str "HONEYPOT"⟩,
        prepareKeywordEntries [str "test call"]⟩],
      [⟨⟨str "interested", 1, str "s2", false, str "INTERESTED"⟩,
        prepareKeywordEntries [str "test"]⟩]⟩
    ⟨str "test call", str "phrase", 9, str "honeypot", str "HONEYPOT"⟩
    (by decide) (by decide)
  exact h.1

lemma groupRuns_facts_aux :
    ∀ (n : Nat) (l : List CategoryEntry), l.length ≤ n →
      ∀ g ∈ groupRuns l,
        g ≠ [] ∧ (∀ a ∈ g, a ∈ l) ∧
          (∀ a ∈ g, ∀ b ∈ g, a.Info.Priority = b.Info.Priority) := by
  intro n
  induction n with
  | zero =>
    intro l hl g hg
    have hnil : l = [] := List.eq_nil_of_length_eq_zero (Nat.le_zero.mp hl)
    rw [hnil] at hg
    exact absurd hg (by simp [groupRuns])
  | succ n ih =>
    intro l hl g hg
    cases l with
    | nil => exact absurd hg (by simp [groupRuns])
    | cons c rest =>
      rw [groupRuns_cons] at hg
      rcases List.mem_cons.mp hg with hg1 | hg2
      · subst hg1
        refine ⟨by simp, ?_, ?_⟩
        · intro a ha
          rcases List.mem_cons.mp ha with h | h
          · simp [h]
          · exact List.mem_cons_of_mem c
              (List.Sublist.mem h (List.takeWhile_sublist _))
        · have hpri : ∀ a ∈ c :: rest.takeWhile
              (fun d => d.Info.Priority == c.Info.Priority),
              a.Info.Priority = c.Info.Priority := by
            intro a ha
            rcases List.mem_cons.mp ha with h | h
            · rw [h]
            · have h2 := List.mem_takeWhile_imp h
              exact beq_iff_eq.mp h2
          intro a ha b hb
          rw [hpri a ha, hpri b hb]
      · have hlen : (rest.dropWhile
            (fun d => d.Info.Priority == c.Info.Priority)).length ≤ n := by
          have h1 := (List.dropWhile_sublist
            (fun d : CategoryEntry =>
              d.Info.Priority == c.Info.Priority) (l := rest)).length_le
          simp only [List.length_cons] at hl
          omega
        obtain ⟨h1, h2, h3⟩ := ih _ hlen g hg2
        exact ⟨h1, fun a ha => List.mem_cons_of_mem c
          (List.Sublist.mem (h2 a ha) (List.dropWhile_sublist _)), h3⟩

lemma groupRuns_chain_aux :
    ∀ (n : Nat) (l : List CategoryEntry), l.length ≤ n →
      List.Pairwise
        (fun a b : CategoryEntry => a.Info.Priority ≤ b.Info.Priority) l →
      List.Chain'
        (fun g h => ∀ a ∈ g, ∀ b ∈ h, a.Info.Priority < b.Info.Priority)
        (groupRuns l) := by
  intro n
  induction n with
  | zero =>
    intro l hl _
    have hnil : l = [] := List.eq_nil_of_length_eq_zero (Nat.le_zero.mp hl)
    rw [hnil]
    simp [groupRuns]
  | succ n ih =>
    intro l hl hsort
    cases l with
    | nil => simp [groupRuns]
    | cons c rest =>
      rw [groupRuns_cons]
      have hdsub := List.dropWhile_sublist
        (fun d : CategoryEntry => d.Info.Priority == c.Info.Priority)
        (l := rest)
      have hlen : (rest.dropWhile
          (fun d => d.Info.Priority == c.Info.Priority)).length ≤ n := by
        have h1 := hdsub.length_le
        simp only [List.length_cons] at hl
        omega
      have hsort2 : List.Pairwise
          (fun a b : CategoryEntry => a.Info.Priority ≤ b.Info.Priority)
          (rest.dropWhile (fun d => d.Info.Priority == c.Info.Priority)) :=
        List.Pairwise.sublist hdsub (List.Pairwise.of_cons hsort)
      rw [List.chain'_cons']
      refine ⟨?_, ih _ hlen hsort2⟩
      intro g2 hg2 a ha b hb
      have hapri : a.Info.Priority = c.Info.Priority := by
        rcases List.mem_cons.mp ha with h | h
        · rw [h]
        · have h2 := List.mem_takeWhile_imp h
          exact beq_iff_eq.mp h2
      cases hdrop : rest.dropWhile
          (fun d => d.Info.Priority == c.Info.Priority) with
      | nil =>
        rw [hdrop] at hg2
        exact absurd hg2 (by simp [groupRuns])
      | cons d0 dw =>
        have hd0 := List.head?_dropWhile_not
          (fun d : CategoryEntry => d.Info.Priority == c.Info.Priority) rest
        rw [hdrop] at hd0
        simp only [List.head?_cons] at hd0
        have hd0ne : d0.Info.Priority ≠ c.Info.Priority := by simpa using hd0
        rw [hdrop, groupRuns_cons] at hg2
        simp only [List.head?_cons, Option.mem_def, Option.some.injEq] at hg2
        have hbpri : b.Info.Priority = d0.Info.Priority := by
          rw [← hg2] at hb
          rcases List.mem_cons.mp hb with h | h
          · rw [h]
          · have h2 := List.mem_takeWhile_imp h
            exact beq_iff_eq.mp h2
        have hble : c.Info.Priority ≤ b.Info.Priority := by
          have hbdw : b ∈ rest.dropWhile
              (fun d => d.Info.Priority == c.Info.Priority) := by
            rw [hdrop]
            rw [← hg2] at hb
            rcases List.mem_cons.mp hb with h | h
            · rw [h]; exact List.mem_cons_self d0 dw
            · exact List.mem_cons_of_mem d0
                (List.Sublist.mem h (List.takeWhile_sublist _))
          have hbr : b ∈ rest := List.Sublist.mem hbdw hdsub
          exact (List.pairwise_cons.mp hsort).1 b hbr
        rw [hapri]
        rw [hbpri] at hble ⊢
        omega

/-- C3: with the stage's prioritized list sorted by priority (as built by
`NewKeywordMatcher`) and the hardcoded tier missing, `ProcessStage`
returns the label of the first (lowest-priority-value) consecutive
equal-priority group on which `findBestMatch` yields a result — later
groups are never consulted (`groupFind` is a first-match scan) — and the
groups partition the list into equal-priority runs in strictly ascending
priority order. -/
theorem process_stage_priority_groups (km : KeywordMatcher)
    (text stage : List Nat) (sd : StageCategories) (v : List Nat)
    (hlk : km.stageMap.lookup stage = some sd)
    (hsort : List.Pairwise
      (fun a b : CategoryEntry => a.Info.Priority ≤ b.Info.Priority)
      sd.Prioritized)
    (hhard : findBestMatch text sd.Hardcoded = none)
    (hgrp : groupFind text (groupRuns sd.Prioritized) = some v) :
    ProcessStage km text stage = v ∧
    (∀ g ∈ groupRuns sd.Prioritized, g ≠ [] ∧
      ∀ a ∈ g, ∀ b ∈ g, a.Info.Priority = b.Info.Priority) ∧
    List.Chain'
      (fun g h => ∀ a ∈ g, ∀ b ∈ h, a.Info.Priority < b.Info.Priority)
      (groupRuns sd.Prioritized) := by
  refine ⟨?_, ?_, ?_⟩
  · simp only [ProcessStage, hlk]
    have h1 : (if 0 < sd.Hardcoded.length then
        findBestMatch text sd.Hardcoded else none) = none := by
      split
      · exact hhard
      · rfl
    rw [h1, prioLoop_eq_groupFind, hgrp]
  · intro g hg
    obtain ⟨h1, _, h3⟩ :=
      groupRuns_facts_aux sd.Prioritized.length sd.Prioritized le_rfl g hg
    exact ⟨h1, h3⟩
  · exact groupRuns_chain_aux sd.Prioritized.length sd.Prioritized le_rfl hsort

/-- Witness for C3: with `donotcall_p1_s3` and `interested_p2_s3` both
matching "please do not call again", classification returns
`DO_NOT_CALL` (priority 1 before priority 2). -/
theorem process_stage_priority_groups_witness :
    ProcessStage kmScenarioA (str "please do not call again") (str "s3")
      = str "DO_NOT_CALL" :=
  (process_stage_priority_groups kmScenarioA
    (str "please do not call again") (str "s3")
    ⟨[],
      [⟨⟨str "donotcall", 1, str "s3", false, str "DO_NOT_CALL"⟩,
        prepareKeywordEntries [str "do not call"]⟩,
       ⟨⟨str "interested", 2, str "s3", false, str "INTERESTED"⟩,
        prepareKeywordEntries [str "please"]⟩]⟩
    (str "DO_NOT_CALL")
    (by decide) (by decide) (by decide) (by decide)).1

/-- C9: in stage `s3` or `s4`, when neither the hardcoded tier nor any
prioritized group matched and the normalized text is exactly "no" or
starts with "no ", `ProcessStage` returns the label of the first
prioritized category with base name `dnq` when one exists, and the
`UNKNOWN_<stage>` sentinel only when none exists. -/
theorem process_stage_dnq_fallback (km : KeywordMatcher)
    (text stage : List Nat) (sd : StageCategories)
    (hlk : km.stageMap.lookup stage = some sd)
    (hstage : stage = str "s3" ∨ stage = str "s4")
    (hhard : findBestMatch text sd.Hardcoded = none)
    (hgrp : groupFind text (groupRuns sd.Prioritized) = none)
    (hno : normalizeText text = str "no" ∨
      (normalizeText text).take 3 = str "no ") :
    ProcessStage km text stage =
      (match sd.Prioritized.find?
          (fun c => c.Info.BaseName == str "dnq") with
       | some c => c.Info.ReturnValue
       | none => str "UNKNOWN_" ++ stage) := by
  simp only [ProcessStage, hlk]
  have h1 : (if 0 < sd.Hardcoded.length then
      findBestMatch text sd.Hardcoded else none) = none := by
    split
    · exact hhard
    · rfl
  rw [h1, prioLoop_eq_groupFind, hgrp, if_pos hstage, if_pos hno]

/-- Witness for C9: input exactly "no" with no keyword match in stage
`s3` yields `DNQ` through the legacy fallback. -/
theorem process_stage_dnq_fallback_witness :
    ProcessStage kmScenarioC (str "no") (str "s3") = str "DNQ" := by
  have h := process_stage_dnq_fallback kmScenarioC (str "no") (str "s3")
    ⟨[],
      [⟨⟨str "dnq", 5, str "s3", false, str "DNQ"⟩,
        prepareKeywordEntries [str "not qualified"]⟩]⟩
    (by decide) (Or.inl rfl) (by decide) (by decide) (Or.inl (by decide))
  rw [h]
  decide

lemma lookup_cons_self {k : List Nat} {v : StageCategories}
    {rest : List (List Nat × StageCategories)} :
    ((k, v) :: rest).lookup k = some v := by
  simp [List.lookup]

lemma lookup_cons_ne {k s : List Nat} {v : StageCategories}
    {rest : List (List Nat × StageCategories)} (h : s ≠ k) :
    ((k, v) :: rest).lookup s = rest.lookup s := by
  simp only [List.lookup]
  rw [show (s == k) = false from by simpa using h]

lemma mem_addCategory (sc : StageCategories) (ce : CategoryEntry) :
    ce ∈ (addCategory sc ce).Hardcoded ++ (addCategory sc ce).Prioritized := by
  unfold addCategory
  by_cases h : ce.Info.IsHardcoded
  · rw [if_pos h]
    simp
  · rw [if_neg h]
    simp

lemma mem_addCategory_mono (sc : StageCategories) (ce c : CategoryEntry)
    (h : c ∈ sc.Hardcoded ++ sc.Prioritized) :
    c ∈ (addCategory sc ce).Hardcoded ++ (addCategory sc ce).Prioritized := by
  unfold addCategory
  by_cases hh : ce.Info.IsHardcoded
  · rw [if_pos hh]
    rcases List.mem_append.mp h with h1 | h1 <;> simp [h1]
  · rw [if_neg hh]
    rcases List.mem_append.mp h with h1 | h1 <;> simp [h1]

lemma addToStageMap_contains (m : List (List Nat × StageCategories))
    (ce : CategoryEntry) :
    containsCategory (addToStageMap m ce.Info.Stage ce) ce.Info
      ce.Keywords := by
  induction m with
  | nil =>
    refine ⟨addCategory ⟨[], []⟩ ce, lookup_cons_self, ce, ?_, rfl, rfl⟩
    exact mem_addCategory _ ce
  | cons kv rest ih =>
    obtain ⟨k, sc⟩ := kv
    show containsCategory (if k = ce.Info.Stage then _ else _) _ _
    by_cases hk : k = ce.Info.Stage
    · rw [if_pos hk]
      subst hk
      exact ⟨addCategory sc ce, lookup_cons_self, ce,
        mem_addCategory sc ce, rfl, rfl⟩
    · rw [if_neg hk]
      obtain ⟨sd, hsd, c, hc, hi, hkw⟩ := ih
      exact ⟨sd, by rw [lookup_cons_ne (fun h => hk h.symm)]; exact hsd,
        c, hc, hi, hkw⟩

lemma addToStageMap_mono (m : List (List Nat × StageCategories))
    (stage : List Nat) (ce : CategoryEntry) (info : CategoryInfo)
    (kws : List keywordEntry) (h : containsCategory m info kws) :
    containsCategory (addToStageMap m stage ce) info kws := by
  induction m with
  | nil =>
    obtain ⟨sd, hsd, _⟩ := h
    exact absurd hsd (by simp [List.lookup])
  | cons kv rest ih =>
    obtain ⟨k, sc⟩ := kv
    obtain ⟨sd, hsd, c, hc, hi, hkw⟩ := h
    show containsCategory (if k = stage then _ else _) _ _
    by_cases hk : k = stage
    · rw [if_pos hk]
      by_cases hs : info.Stage = k
      · subst hs
        rw [lookup_cons_self] at hsd
        injection hsd with hsd
        subst hsd
        exact ⟨addCategory sc ce, lookup_cons_self, c,
          mem_addCategory_mono sc ce c hc, hi, hkw⟩
      · rw [lookup_cons_ne hs] at hsd
        exact ⟨sd, by rw [lookup_cons_ne hs]; exact hsd, c, hc, hi, hkw⟩
    · rw [if_neg hk]
      by_cases hs : info.Stage = k
      · subst hs
        rw [lookup_cons_self] at hsd
        injection hsd with hsd
        subst hsd
        exact ⟨sc, lookup_cons_self, c, hc, hi, hkw⟩
      · rw [lookup_cons_ne hs] at hsd
        obtain ⟨sd2, hsd2, c2, hc2, hi2, hkw2⟩ :=
          ih ⟨sd, hsd, c, hc, hi, hkw⟩
        exact ⟨sd2, by rw [lookup_cons_ne hs]; exact hsd2, c2, hc2, hi2, hkw2⟩

lemma buildStep_mono (m : List (List Nat × StageCategories))
    (kv : List Nat × GoVal) (info : CategoryInfo)
    (kws : List keywordEntry) (h : containsCategory m info kws) :
    containsCategory (buildStep m kv) info kws := by
  cases hp : parseCategoryName kv.1 with
  | none => simpa only [buildStep, hp] using h
  | some info2 =>
    simp only [buildStep, hp]
    by_cases hz : (convertToStringSlice kv.2).length = 0
    · rw [if_pos hz]
      exact h
    · rw [if_neg hz]
      exact addToStageMap_mono _ _ _ _ _ h

lemma foldl_buildStep_mono (cfg : List (List Nat × GoVal))
    (m : List (List Nat × StageCategories)) (info : CategoryInfo)
    (kws : List keywordEntry) (h : containsCategory m info kws) :
    containsCategory (cfg.foldl buildStep m) info kws := by
  induction cfg generalizing m with
  | nil => exact h
  | cons kv rest ih => exact ih _ (buildStep_mono m kv info kws h)

lemma sortStages_contains (m : List (List Nat × StageCategories))
    (info : CategoryInfo) (kws : List keywordEntry)
    (h : containsCategory m info kws) :
    containsCategory (sortStages m) info kws := by
  obtain ⟨sd, hsd, c, hc, hi, hkw⟩ := h
  induction m with
  | nil => exact absurd hsd (by simp [List.lookup])
  | cons kv rest ih =>
    obtain ⟨k, sc⟩ := kv
    by_cases hs : info.Stage = k
    · subst hs
      rw [lookup_cons_self] at hsd
      injection hsd with hsd
      subst hsd
      refine ⟨⟨sc.Hardcoded, List.insertionSort
        (fun a b => a.Info.Priority ≤ b.Info.Priority) sc.Prioritized⟩,
        lookup_cons_self, c, ?_, hi, hkw⟩
      rcases List.mem_append.mp hc with h1 | h1
      · exact List.mem_append.mpr (Or.inl h1)
      · refine List.mem_append.mpr (Or.inr ?_)
        exact (List.Perm.mem_iff (List.perm_insertionSort _ _)).mpr h1
    · rw [lookup_cons_ne hs] at hsd
      obtain ⟨sd2, hsd2, c2, hc2, hi2, hkw2⟩ := ih hsd
      exact ⟨sd2, by
        show ((k, _) :: sortStages rest).lookup info.Stage = _
        rw [lookup_cons_ne hs]
        exact hsd2, c2, hc2, hi2, hkw2⟩

lemma newKeywordMatcher_contains (cfg : List (List Nat × GoVal))
    (key : List Nat) (v : GoVal) (info : CategoryInfo)
    (hmem : (key, v) ∈ cfg)
    (hparse : parseCategoryName key = some info)
    (hne : convertToStringSlice v ≠ []) :
    containsCategory (NewKeywordMatcher cfg).stageMap info
      (prepareKeywordEntries (convertToStringSlice v)) := by
  refine sortStages_contains _ _ _ ?_
  show containsCategory (cfg.foldl buildStep []) _ _
  suffices hgen : ∀ (cfg2 : List (List Nat × GoVal)) m, (key, v) ∈ cfg2 →
      containsCategory (cfg2.foldl buildStep m) info
        (prepareKeywordEntries (convertToStringSlice v)) from
    hgen cfg [] hmem
  intro cfg2
  induction cfg2 with
  | nil => intro m hm; exact absurd hm (by simp)
  | cons kv rest ih =>
    intro m hm
    rw [List.foldl_cons]
    rcases List.mem_cons.mp hm with h1 | h1
    · refine foldl_buildStep_mono rest _ info _ ?_
      rw [← h1]
      simp only [buildStep, hparse]
      rw [if_neg (by simpa [List.length_eq_zero] using hne)]
      exact addToStageMap_contains m ⟨info, _⟩
    · exact ih _ h1

/-- Counterexample to C6: the key `a_p1_s1` parses, its value (an empty
array) yields zero keywords, and `NewKeywordMatcher` then skips the
category entirely (`if len(keywords) == 0 { continue }`): the resulting
stage map is empty, with no bucket for the category. -/
theorem build_zero_keywords_c6_cex :
    (parseCategoryName (str "a_p1_s1")).isSome = true ∧
    convertToStringSlice (GoVal.aVal []) = [] ∧
    (NewKeywordMatcher [(str "a_p1_s1", GoVal.aVal [])]).stageMap = [] ∧
    (NewKeywordMatcher [(str "a_p1_s1", GoVal.aVal [])]).stageMap.lookup
      (str "s1") = none := by decide

/-- C6 amended: a category whose key parses and whose value yields at
least one raw string, all of which normalize to empty (zero surviving
keyword entries), is still included in the stage map with an empty
keyword list; a category whose value yields zero raw strings is skipped
entirely.  Neither case errors. -/
theorem build_empty_keywords_included (cfg : List (List Nat × GoVal))
    (key : List Nat) (v : GoVal) (info : CategoryInfo)
    (hmem : (key, v) ∈ cfg)
    (hparse : parseCategoryName key = some info)
    (hne : convertToStringSlice v ≠ [])
    (hempty : prepareKeywordEntries (convertToStringSlice v) = []) :
    ∃ sd, (NewKeywordMatcher cfg).stageMap.lookup info.Stage = some sd ∧
      ∃ c ∈ sd.Hardcoded ++ sd.Prioritized,
        c.Info = info ∧ c.Keywords = [] := by
  have h := newKeywordMatcher_contains cfg key v info hmem hparse hne
  rw [hempty] at h
  exact h

/-- Witness for the amended C6: a category whose only keyword is a blank
string survives as a bucket with an empty keyword list. -/
theorem build_empty_keywords_included_witness :
    ∃ sd, (NewKeywordMatcher
        [(str "empty_p1_s1", GoVal.sVal (str " "))]).stageMap.lookup
        (CategoryInfo.Stage
          ⟨str "empty", 1, str "s1", false, str "EMPTY"⟩) = some sd ∧
      ∃ c ∈ sd.Hardcoded ++ sd.Prioritized,
        c.Info = ⟨str "empty", 1, str "s1", false, str "EMPTY"⟩ ∧
          c.Keywords = [] :=
  build_empty_keywords_included _ (str "empty_p1_s1")
    (GoVal.sVal (str " "))
    ⟨str "empty", 1, str "s1", false, str "EMPTY"⟩
    (List.mem_singleton.mpr rfl) (by decide) (by decide) (by decide)

lemma lookup_mem {α β : Type} [BEq α] [LawfulBEq α] :
    ∀ {l : List (α × β)} {a : α} {b : β},
    l.lookup a = some b → (a, b) ∈ l := by
  intro l
  induction l with
  | nil => intro a b h; exact absurd h (by simp [List.lookup])
  | cons kv rest ih =>
    intro a b h
    obtain ⟨k, v⟩ := kv
    simp only [List.lookup] at h
    by_cases hk : a = k
    · rw [show (a == k) = true from by simpa using hk] at h
      injection h with h
      rw [hk, h]
      exact List.mem_cons_self _ _
    · rw [show (a == k) = false from by simpa using hk] at h
      exact List.mem_cons_of_mem _ (ih h)

lemma nfkdChar_of_lookup_none {c : Nat} (h : nfkdPairs.lookup c = none) :
    nfkdChar c = [c] := by
  unfold nfkdChar
  rw [h]
  rfl

lemma nfkdChar_fix_of_mem {c d : Nat} (h : d ∈ nfkdChar c) :
    nfkdChar d = [d] := by
  have htab : ∀ p ∈ nfkdPairs, ∀ d2 ∈ p.2, nfkdPairs.lookup d2 = none := by
    decide
  cases hlk : nfkdPairs.lookup c with
  | none =>
    rw [nfkdChar_of_lookup_none hlk] at h
    simp only [List.mem_singleton] at h
    rw [h]
    exact nfkdChar_of_lookup_none hlk
  | some ds =>
    have hmem := lookup_mem hlk
    have hd : d ∈ ds := by
      unfold nfkdChar at h
      rw [hlk] at h
      exact h
    exact nfkdChar_of_lookup_none (htab (c, ds) hmem d hd)

lemma nfkdChar_fix_lower {c : Nat} (h : nfkdChar c = [c]) :
    nfkdChar (goToLower c) = [goToLower c] := by
  unfold goToLower
  by_cases h1 : 65 ≤ c ∧ c ≤ 90
  · rw [if_pos h1]
    obtain ⟨ha, hb⟩ := h1
    interval_cases c <;> decide
  · rw [if_neg h1]
    by_cases h2 : 192 ≤ c ∧ c ≤ 222 ∧ c ≠ 215
    · rw [if_pos h2]
      obtain ⟨ha, hb, _⟩ := h2
      revert h
      interval_cases c <;> decide
    · rw [if_neg h2]
      exact h

lemma goToLower_fix_lower (c : Nat) :
    goToLower (goToLower c) = goToLower c := by
  unfold goToLower
  by_cases h1 : 65 ≤ c ∧ c ≤ 90
  · rw [if_pos h1, if_neg (by omega), if_neg (by omega)]
  · rw [if_neg h1]
    by_cases h2 : 192 ≤ c ∧ c ≤ 222 ∧ c ≠ 215
    · rw [if_pos h2, if_neg (by omega), if_neg (by omega)]
    · rw [if_neg h2, if_neg h1, if_neg h2]

lemma goIsSpace_lower {c : Nat} : goIsSpace (goToLower c) = goIsSpace c := by
  unfold goToLower
  by_cases h1 : 65 ≤ c ∧ c ≤ 90
  · rw [if_pos h1]
    have hA : goIsSpace (c + 32) = false := by
      simp only [goIsSpace, decide_eq_false_iff_not]
      omega
    have hB : goIsSpace c = false := by
      simp only [goIsSpace, decide_eq_false_iff_not]
      omega
    rw [hA, hB]
  · rw [if_neg h1]
    by_cases h2 : 192 ≤ c ∧ c ≤ 222 ∧ c ≠ 215
    · rw [if_pos h2]
      have hA : goIsSpace (c + 32) = false := by
        simp only [goIsSpace, decide_eq_false_iff_not]
        omega
      have hB : goIsSpace c = false := by
        simp only [goIsSpace, decide_eq_false_iff_not]
        omega
      rw [hA, hB]
    · rw [if_neg h2]

lemma goodCh_32 : goodCh 32 := by decide

lemma goodCh_lower_of_fix {c : Nat} (hn : nfkdChar c = [c])
    (hs : goIsSpace c = true → c = 32) : goodCh (goToLower c) := by
  refine ⟨nfkdChar_fix_lower hn, goToLower_fix_lower c, ?_⟩
  intro hsp
  rw [goIsSpace_lower] at hsp
  have hc := hs hsp
  rw [hc]
  rfl

lemma fieldsAux_mem_chars :
    ∀ (s acc w : List Nat) (c : Nat), w ∈ fieldsAux s acc → c ∈ w →
      c ∈ s ∨ c ∈ acc := by
  intro s
  induction s with
  | nil =>
    intro acc w c hw hc
    simp only [fieldsAux] at hw
    by_cases ha : acc = []
    · rw [if_pos ha] at hw
      exact absurd hw (by simp)
    · rw [if_neg ha] at hw
      simp only [List.mem_singleton] at hw
      rw [hw] at hc
      exact Or.inr (List.mem_reverse.mp hc)
  | cons x xs ih =>
    intro acc w c hw hc
    simp only [fieldsAux] at hw
    by_cases hsp : goIsSpace x = true
    · rw [if_pos hsp] at hw
      by_cases ha : acc = []
      · rw [if_pos ha] at hw
        rcases ih [] w c hw hc with h | h
        · exact Or.inl (List.mem_cons_of_mem x h)
        · exact absurd h (by simp)
      · rw [if_neg ha] at hw
        rcases List.mem_cons.mp hw with h | h
        · rw [h] at hc
          exact Or.inr (List.mem_reverse.mp hc)
        · rcases ih [] w c h hc with h2 | h2
          · exact Or.inl (List.mem_cons_of_mem x h2)
          · exact absurd h2 (by simp)
    · rw [if_neg hsp] at hw
      rcases ih (x :: acc) w c hw hc with h | h
      · exact Or.inl (List.mem_cons_of_mem x h)
      · rcases List.mem_cons.mp h with h2 | h2
        · rw [h2]
          exact Or.inl (List.mem_cons_self x xs)
        · exact Or.inr h2

lemma fieldsAux_nonspace :
    ∀ (s acc w : List Nat), (∀ c ∈ acc, goIsSpace c = false) →
      w ∈ fieldsAux s acc → ∀ c ∈ w, goIsSpace c = false := by
  intro s
  induction s with
  | nil =>
    intro acc w hacc hw c hc
    simp only [fieldsAux] at hw
    by_cases ha : acc = []
    · rw [if_pos ha] at hw
      exact absurd hw (by simp)
    · rw [if_neg ha] at hw
      simp only [List.mem_singleton] at hw
      rw [hw] at hc
      exact hacc c (List.mem_reverse.mp hc)
  | cons x xs ih =>
    intro acc w hacc hw c hc
    simp only [fieldsAux] at hw
    by_cases hsp : goIsSpace x = true
    · rw [if_pos hsp] at hw
      by_cases ha : acc = []
      · rw [if_pos ha] at hw
        exact ih [] w (by simp) hw c hc
      · rw [if_neg ha] at hw
        rcases List.mem_cons.mp hw with h | h
        · rw [h] at hc
          exact hacc c (List.mem_reverse.mp hc)
        · exact ih [] w (by simp) h c hc
    · rw [if_neg hsp] at hw
      refine ih (x :: acc) w ?_ hw c hc
      intro c2 hc2
      rcases List.mem_cons.mp hc2 with h2 | h2
      · rw [h2]
        exact Bool.eq_false_iff.mpr hsp
      · exact hacc c2 h2

lemma fieldsAux_ne_nil :
    ∀ (s acc w : List Nat), w ∈ fieldsAux s acc → w ≠ [] := by
  intro s
  induction s with
  | nil =>
    intro acc w hw
    simp only [fieldsAux] at hw
    by_cases ha : acc = []
    · rw [if_pos ha] at hw
      exact absurd hw (by simp)
    · rw [if_neg ha] at hw
      simp only [List.mem_singleton] at hw
      rw [hw]
      simpa using ha
  | cons x xs ih =>
    intro acc w hw
    simp only [fieldsAux] at hw
    by_cases hsp : goIsSpace x = true
    · rw [if_pos hsp] at hw
      by_cases ha : acc = []
      · rw [if_pos ha] at hw
        exact ih [] w hw
      · rw [if_neg ha] at hw
        rcases List.mem_cons.mp hw with h | h
        · rw [h]
          simpa using ha
        · exact ih [] w h
    · rw [if_neg hsp] at hw
      exact ih (x :: acc) w hw

lemma fieldsAux_all_nonspace :
    ∀ (s acc : List Nat), (∀ c ∈ s, goIsSpace c = false) →
      fieldsAux s acc =
        if acc = [] ∧ s = [] then [] else [acc.reverse ++ s] := by
  intro s
  induction s with
  | nil =>
    intro acc _
    simp only [fieldsAux]
    by_cases ha : acc = []
    · rw [if_pos ha, if_pos (by simp [ha])]
    · rw [if_neg ha, if_neg (by simp [ha])]
      simp
  | cons x xs ih =>
    intro acc hns
    simp only [fieldsAux]
    rw [if_neg (by
      rw [hns x (List.mem_cons_self x xs)]
      simp)]
    rw [ih (x :: acc) (fun c hc => hns c (List.mem_cons_of_mem x hc))]
    rw [if_neg (by simp), if_neg (by simp)]
    simp

lemma fields_of_nonspace {w : List Nat} (hne : w ≠ [])
    (hns : ∀ c ∈ w, goIsSpace c = false) : fields w = [w] := by
  unfold fields
  rw [fieldsAux_all_nonspace w [] hns, if_neg (by simp [hne])]
  simp

lemma fieldsAux_append_single_space :
    ∀ (s acc : List Nat), fieldsAux (s ++ [32]) acc = fieldsAux s acc := by
  intro s
  induction s with
  | nil =>
    intro acc
    show fieldsAux [32] acc = fieldsAux [] acc
    simp only [fieldsAux]
    rw [if_pos (by decide)]
    by_cases ha : acc = []
    · rw [if_pos ha, if_pos ha]
      rfl
    · rw [if_neg ha, if_neg ha]
      rfl
  | cons x xs ih =>
    intro acc
    show fieldsAux (x :: (xs ++ [32])) acc = fieldsAux (x :: xs) acc
    simp only [fieldsAux]
    by_cases hsp : goIsSpace x = true
    · rw [if_pos hsp, if_pos hsp]
      by_cases ha : acc = []
      · rw [if_pos ha, if_pos ha, ih]
      · rw [if_neg ha, if_neg ha, ih]
    · rw [if_neg hsp, if_neg hsp, ih]

lemma fieldsAux_append_space :
    ∀ (s acc ys : List Nat),
      fieldsAux (s ++ 32 :: ys) acc =
        fieldsAux (s ++ [32]) acc ++ fieldsAux ys [] := by
  intro s
  induction s with
  | nil =>
    intro acc ys
    show fieldsAux (32 :: ys) acc = fieldsAux [32] acc ++ fieldsAux ys []
    by_cases ha : acc = []
    · subst ha
      have h1 : fieldsAux (32 :: ys) [] = fieldsAux ys [] := by
        simp only [fieldsAux]
        rw [if_pos (by decide), if_pos trivial]
      have h2 : fieldsAux ([32] : List Nat) [] = [] := rfl
      rw [h1, h2, List.nil_append]
    · have h1 : fieldsAux (32 :: ys) acc = acc.reverse :: fieldsAux ys [] := by
        simp only [fieldsAux]
        rw [if_pos (by decide), if_neg ha]
      have h2 : fieldsAux [32] acc = [acc.reverse] := by
        simp only [fieldsAux]
        rw [if_pos (by decide), if_neg ha]
        rfl
      rw [h1, h2]
      rfl
  | cons x xs ih =>
    intro acc ys
    show fieldsAux (x :: (xs ++ 32 :: ys)) acc =
      fieldsAux (x :: (xs ++ [32])) acc ++ fieldsAux ys []
    simp only [fieldsAux]
    by_cases hsp : goIsSpace x = true
    · rw [if_pos hsp, if_pos hsp]
      by_cases ha : acc = []
      · rw [if_pos ha, if_pos ha, ih]
      · rw [if_neg ha, if_neg ha, ih]
        rfl
    · rw [if_neg hsp, if_neg hsp, ih]

lemma fields_append_space (a b : List Nat) :
    fields (a ++ 32 :: b) = fields a ++ fields b := by
  unfold fields
  rw [fieldsAux_append_space a [] b, fieldsAux_append_single_space]

lemma goJoin_cons_of_ne {sep w : List Nat} {ws : List (List Nat)}
    (h : ws ≠ []) : goJoin sep (w :: ws) = w ++ sep ++ goJoin sep ws := by
  cases ws with
  | nil => exact absurd rfl h
  | cons w2 rest => rfl

lemma mem_goJoin_space {c : Nat} :
    ∀ {ws : List (List Nat)}, c ∈ goJoin [32] ws →
      c = 32 ∨ ∃ w ∈ ws, c ∈ w := by
  intro ws
  induction ws with
  | nil => intro h; exact absurd h (by simp [goJoin])
  | cons w rest ih =>
    intro h
    cases rest with
    | nil =>
      right
      exact ⟨w, List.mem_singleton.mpr rfl, h⟩
    | cons w2 rest2 =>
      rw [goJoin_cons_of_ne (by simp)] at h
      rcases List.mem_append.mp h with h1 | h1
      · rcases List.mem_append.mp h1 with h2 | h2
        · exact Or.inr ⟨w, List.mem_cons_self _ _, h2⟩
        · simp only [List.mem_singleton] at h2
          exact Or.inl h2
      · rcases ih h1 with h2 | h2
        · exact Or.inl h2
        · obtain ⟨w3, hw3, hc3⟩ := h2
          exact Or.inr ⟨w3, List.mem_cons_of_mem w hw3, hc3⟩

lemma map_id_of_mem {α : Type} {f : α → α} :
    ∀ {t : List α}, (∀ c ∈ t, f c = c) → t.map f = t := by
  intro t
  induction t with
  | nil => intro _; rfl
  | cons c cs ih =>
    intro h
    rw [List.map_cons, h c (List.mem_cons_self c cs),
      ih fun d hd => h d (List.mem_cons_of_mem c hd)]

lemma flatMap_id_of_mem :
    ∀ {t : List Nat}, (∀ c ∈ t, nfkdChar c = [c]) → nfkdStr t = t := by
  intro t
  induction t with
  | nil => intro _; rfl
  | cons c cs ih =>
    intro h
    show nfkdChar c ++ cs.flatMap nfkdChar = c :: cs
    rw [h c (List.mem_cons_self c cs)]
    have := ih fun d hd => h d (List.mem_cons_of_mem c hd)
    unfold nfkdStr at this
    rw [this]
    rfl

lemma isRegSpace_isSpace {c : Nat} (h : isRegSpace c = true) :
    goIsSpace c = true := by
  simp only [isRegSpace, decide_eq_true_eq] at h
  simp only [goIsSpace, decide_eq_true_eq]
  omega

lemma collapseSpace_cons (c : Nat) (cs : List Nat) :
    collapseSpace (c :: cs) =
      (if isRegSpace c then
        if (collapseSpace cs).head? = some 32 then collapseSpace cs
        else 32 :: collapseSpace cs
      else c :: collapseSpace cs) := rfl

lemma collapseSpace_id : ∀ {t : List Nat}, okString t → collapseSpace t = t := by
  intro t
  induction t with
  | nil => intro _; rfl
  | cons c cs ih =>
    intro ⟨hch, hchain⟩
    have hcs : collapseSpace cs = cs :=
      ih ⟨fun d hd => hch d (List.mem_cons_of_mem c hd), hchain.tail⟩
    rw [collapseSpace_cons, hcs]
    by_cases hsp : isRegSpace c = true
    · have hc32 : c = 32 := hch c (List.mem_cons_self c cs) hsp
      rw [if_pos hsp]
      have hhead : cs.head? ≠ some 32 := by
        intro hh
        have h32 : (32 : Nat) ∈ cs.head? := by rw [hh]; rfl
        have := (List.chain'_cons'.mp hchain).1 32 h32
        exact this ⟨hc32, rfl⟩
      rw [if_neg hhead, hc32]
    · rw [if_neg hsp]

lemma chain'_of_noDoubleSpace :
    ∀ {w : List Nat}, noDoubleSpace w = true →
      List.Chain' (fun a b => ¬(a = 32 ∧ b = 32)) w := by
  intro w
  induction w with
  | nil => intro _; simp
  | cons a rest ih =>
    intro h
    cases rest with
    | nil => simp
    | cons b rest2 =>
      simp only [noDoubleSpace, Bool.and_eq_true, Bool.not_eq_true] at h
      rw [List.chain'_cons]
      refine ⟨?_, ih h.2⟩
      intro hcon
      rw [hcon.1, hcon.2] at h
      exact absurd h.1 (by simp)

lemma contraction_values_ok :
    ∀ p ∈ contractions, wordOK p.2 ∧ wordStable p.2 := by decide

lemma noDoubleSpace_of_no32 : ∀ {w : List Nat}, (∀ c ∈ w, c ≠ 32) →
    noDoubleSpace w = true := by
  intro w
  induction w with
  | nil => intro _; rfl
  | cons a rest ih =>
    intro h
    cases rest with
    | nil => rfl
    | cons b rest2 =>
      simp only [noDoubleSpace, Bool.and_eq_true, Bool.not_eq_true]
      refine ⟨?_, ih fun c hc => h c (List.mem_cons_of_mem a hc)⟩
      have ha := h a (List.mem_cons_self _ _)
      simp [ha]

lemma trim_mem {a : Nat} {t : List Nat} (h : a ∈ trimSpace t) : a ∈ t := by
  unfold trimSpace at h
  rw [List.mem_reverse] at h
  have h2 := List.Sublist.mem h (List.dropWhile_sublist _)
  rw [List.mem_reverse] at h2
  exact List.Sublist.mem h2 (List.dropWhile_sublist _)

/-- Every character of the word stage of the normalizer is settled. -/
lemma stage3_goodCh (s : List Nat) :
    ∀ c ∈ (trimSpace (spaceFix (nfkdStr s))).map goToLower, goodCh c := by
  intro c hc
  obtain ⟨e, he, hce⟩ := List.mem_map.mp hc
  have he1 : e ∈ spaceFix (nfkdStr s) := trim_mem he
  obtain ⟨d, hd, hde⟩ := List.mem_map.mp he1
  obtain ⟨c0, _, hd0⟩ := List.mem_flatMap.mp hd
  have hdfix : nfkdChar d = [d] := nfkdChar_fix_of_mem hd0
  rw [← hce]
  by_cases hsp : goIsSpace d = true
  · rw [if_pos hsp] at hde
    rw [← hde]
    exact goodCh_32
  · rw [if_neg hsp] at hde
    rw [← hde]
    exact goodCh_lower_of_fix hdfix
      (fun h2 => absurd h2 (Bool.eq_false_iff.mp (Bool.eq_false_iff.mpr hsp)))

/-- The words of the normalizer's output (fields of the lowered text,
each passed through contraction expansion) are well-formed and stable. -/
lemma normWords_spec (s : List Nat) :
    ∀ w ∈ (fields ((trimSpace (spaceFix (nfkdStr s))).map goToLower)).map
      expandWord, wordOK w ∧ wordStable w := by
  intro w hw
  obtain ⟨w0, hw0, hexp⟩ := List.mem_map.mp hw
  have hne : w0 ≠ [] := fieldsAux_ne_nil _ [] w0 hw0
  have hns : ∀ c ∈ w0, goIsSpace c = false :=
    fieldsAux_nonspace _ [] w0 (by simp) hw0
  have hgood : ∀ c ∈ w0, goodCh c := by
    intro c hc
    rcases fieldsAux_mem_chars _ [] w0 c hw0 hc with h | h
    · exact stage3_goodCh s c h
    · exact absurd h (by simp)
  have hne32 : ∀ c ∈ w0, c ≠ 32 := by
    intro c hc hc32
    rw [hc32] at hc
    have := hns 32 hc
    exact absurd this (by decide)
  cases hlu : contractions.lookup w0 with
  | none =>
    have hww : w = w0 := by
      rw [← hexp]
      unfold expandWord
      rw [hlu]
      rfl
    subst hww
    constructor
    · refine ⟨hne, hgood, noDoubleSpace_of_no32 hne32, ?_, ?_⟩
      · intro hh
        have h32 : (32 : Nat) ∈ w.head? := by rw [hh]; rfl
        exact hne32 32 (List.mem_of_mem_head? h32) rfl
      · intro hh
        have h32 : (32 : Nat) ∈ w.getLast? := by rw [hh]; rfl
        exact hne32 32 (List.mem_of_mem_getLast? h32) rfl
    · have hfw : fields w = [w] := fields_of_nonspace hne hns
      refine ⟨?_, ?_, ?_⟩
      · intro u hu
        rw [hfw] at hu
        simp only [List.mem_singleton] at hu
        rw [hu]
        exact hlu
      · rw [hfw]
        rfl
      · rw [hfw]
        simp
  | some v =>
    have hmem := lookup_mem hlu
    have hvok := contraction_values_ok (w0, v) hmem
    have hww : w = v := by
      rw [← hexp]
      unfold expandWord
      rw [hlu]
      rfl
    rw [hww]
    exact hvok

lemma okString_join {ws : List (List Nat)} (h : ∀ w ∈ ws, wordOK w) :
    okString (goJoin [32] ws) := by
  constructor
  · intro c hc hreg
    rcases mem_goJoin_space hc with h1 | ⟨w, hw, hcw⟩
    · exact h1
    · exact ((h w hw).2.1 c hcw).2.2 (isRegSpace_isSpace hreg)
  · induction ws with
    | nil => simp [goJoin]
    | cons w rest ih =>
      cases rest with
      | nil => exact chain'_of_noDoubleSpace (h w (List.mem_cons_self _ _)).2.2.1
      | cons w2 rest2 =>
        rw [goJoin_cons_of_ne (by simp), List.append_assoc]
        rw [List.chain'_append]
        obtain ⟨hwne, hwch, hwchain, hwh, hwl⟩ := h w (List.mem_cons_self _ _)
        refine ⟨chain'_of_noDoubleSpace hwchain, ?_, ?_⟩
        · show List.Chain' _ (32 :: goJoin [32] (w2 :: rest2))
          rw [List.chain'_cons']
          refine ⟨?_, ih (fun u hu => h u (List.mem_cons_of_mem w hu))⟩
          intro y hy hcon
          obtain ⟨w2ne, _, _, w2h, _⟩ :=
            h w2 (List.mem_cons_of_mem w (List.mem_cons_self _ _))
          cases w2 with
          | nil => exact absurd rfl w2ne
          | cons x xs =>
            have hhead : (goJoin [32] ((x :: xs) :: rest2)).head? = some x := by
              cases rest2 <;> rfl
            rw [hhead] at hy
            simp only [Option.mem_def, Option.some.injEq] at hy
            have hx : x = 32 := by rw [hy]; exact hcon.2
            exact w2h (by rw [hx]; rfl)
        · intro x hx y hy
          show ¬(x = 32 ∧ y = 32)
          intro hcon
          have : w.getLast? = some x := Option.mem_def.mp hx
          exact hwl (by rw [this, hcon.1])

lemma head?_ne_nil {t : List Nat} {c : Nat} (h : t.head? = some c) :
    t ≠ [] := by
  intro hn
  rw [hn] at h
  exact Option.noConfusion h

lemma goJoin_head_nonspace {ws : List (List Nat)}
    (h : ∀ w ∈ ws, wordOK w) :
    ∀ c, (goJoin [32] ws).head? = some c → goIsSpace c = false := by
  intro c hc
  cases ws with
  | nil => exact absurd hc (by simp [goJoin])
  | cons w rest =>
    obtain ⟨hwne, hwch, _, hwh, _⟩ := h w (List.mem_cons_self _ _)
    cases w with
    | nil => exact absurd rfl hwne
    | cons x xs =>
      have hhead : (goJoin [32] ((x :: xs) :: rest)).head? = some x := by
        cases rest <;> rfl
      rw [hhead] at hc
      injection hc with hc
      subst hc
      have hx32 : x ≠ 32 := fun h32 => hwh (by rw [h32]; rfl)
      have hg := hwch x (List.mem_cons_self _ _)
      by_cases hsp : goIsSpace x = true
      · exact absurd (hg.2.2 hsp) hx32
      · exact Bool.eq_false_iff.mpr hsp

lemma goJoin_getLast_nonspace :
    ∀ (ws : List (List Nat)), (∀ w ∈ ws, wordOK w) →
      ∀ c, (goJoin [32] ws).getLast? = some c → goIsSpace c = false := by
  intro ws
  induction ws with
  | nil => intro _ c hc; exact absurd hc (by simp [goJoin])
  | cons w rest ih =>
    intro h c hc
    cases rest with
    | nil =>
      obtain ⟨hwne, hwch, _, _, hwl⟩ := h w (List.mem_cons_self _ _)
      have hcw : c ∈ w := List.mem_of_mem_getLast? (by
        show c ∈ (w : List Nat).getLast?
        rw [show (goJoin [32] [w]) = w from rfl] at hc
        rw [hc]
        rfl)
      have hx32 : c ≠ 32 := fun h32 => hwl (by
        rw [show (goJoin [32] [w]) = w from rfl] at hc
        rw [hc, h32])
      have hg := hwch c hcw
      by_cases hsp : goIsSpace c = true
      · exact absurd (hg.2.2 hsp) hx32
      · exact Bool.eq_false_iff.mpr hsp
    | cons w2 rest2 =>
      have hjoin : goJoin [32] (w :: w2 :: rest2) =
          w ++ [32] ++ goJoin [32] (w2 :: rest2) := rfl
      obtain ⟨w2ne, _, _, _, _⟩ :=
        h w2 (List.mem_cons_of_mem w (List.mem_cons_self _ _))
      have hjne : (goJoin [32] (w2 :: rest2)).head?.isSome := by
        cases w2 with
        | nil => exact absurd rfl w2ne
        | cons x xs =>
          have : (goJoin [32] ((x :: xs) :: rest2)).head? = some x := by
            cases rest2 <;> rfl
          rw [this]
          rfl
      cases hgl : (goJoin [32] (w2 :: rest2)).getLast? with
      | none =>
        rw [List.getLast?_eq_none_iff] at hgl
        rw [hgl] at hjne
        exact absurd hjne (by simp)
      | some z =>
        have : (goJoin [32] (w :: w2 :: rest2)).getLast? = some z := by
          rw [hjoin, List.getLast?_append, hgl]
          rfl
        rw [this] at hc
        injection hc with hc
        subst hc
        exact ih (fun u hu => h u (List.mem_cons_of_mem w hu)) z hgl

lemma dropWhile_eq_self_head {t : List Nat} {c : Nat}
    (hh : t.head? = some c) (hc : goIsSpace c = false) :
    t.dropWhile goIsSpace = t := by
  cases t with
  | nil => exact absurd hh (by simp)
  | cons x xs =>
    injection hh with hh
    subst hh
    rw [List.dropWhile_cons, if_neg (by rw [hc]; simp)]

lemma trimSpace_eq_self {t : List Nat}
    (hh : ∀ c, t.head? = some c → goIsSpace c = false)
    (hl : ∀ c, t.getLast? = some c → goIsSpace c = false) :
    trimSpace t = t := by
  unfold trimSpace
  cases ht : t.head? with
  | none =>
    have : t = [] := by
      cases t
      · rfl
      · exact absurd ht (by simp)
    rw [this]
    rfl
  | some c =>
    rw [dropWhile_eq_self_head ht (hh c ht)]
    cases hgl : t.getLast? with
    | none =>
      rw [List.getLast?_eq_none_iff] at hgl
      rw [hgl]
      rfl
    | some z =>
      have hrev : t.reverse.head? = some z := by
        rw [List.head?_reverse, hgl]
      rw [dropWhile_eq_self_head hrev (hl z hgl), List.reverse_reverse]

lemma fields_goJoin :
    ∀ (ws : List (List Nat)), fields (goJoin [32] ws) = ws.flatMap fields := by
  intro ws
  induction ws with
  | nil => rfl
  | cons w rest ih =>
    cases rest with
    | nil =>
      show fields w = fields w ++ [].flatMap fields
      simp
    | cons w2 rest2 =>
      have hjoin : goJoin [32] (w :: w2 :: rest2) =
          w ++ 32 :: goJoin [32] (w2 :: rest2) := by
        show w ++ [32] ++ _ = _
        rw [List.append_assoc]
        rfl
      rw [hjoin, fields_append_space, ih]
      rfl

lemma goJoin_append_space {as bs : List (List Nat)} (ha : as ≠ [])
    (hb : bs ≠ []) :
    goJoin [32] (as ++ bs) = goJoin [32] as ++ [32] ++ goJoin [32] bs := by
  induction as with
  | nil => exact absurd rfl ha
  | cons a as2 ih =>
    cases as2 with
    | nil =>
      show goJoin [32] (a :: bs) = a ++ [32] ++ goJoin [32] bs
      exact goJoin_cons_of_ne hb
    | cons a2 as3 =>
      show goJoin [32] (a :: ((a2 :: as3) ++ bs)) = _
      rw [goJoin_cons_of_ne
          (show (a2 :: as3) ++ bs ≠ [] from by simp),
        ih (by simp),
        goJoin_cons_of_ne
          (show a2 :: as3 ≠ ([] : List (List Nat)) from by simp)]
      simp [List.append_assoc]

lemma goJoin_flatMap :
    ∀ (ws : List (List Nat)),
      (∀ w ∈ ws, goJoin [32] (fields w) = w ∧ fields w ≠ []) →
      goJoin [32] (ws.flatMap fields) = goJoin [32] ws := by
  intro ws
  induction ws with
  | nil => intro _; rfl
  | cons w rest ih =>
    intro h
    obtain ⟨hjw, hfw⟩ := h w (List.mem_cons_self _ _)
    cases rest with
    | nil =>
      show goJoin [32] (fields w ++ []) = goJoin [32] [w]
      rw [List.append_nil, hjw]
      rfl
    | cons w2 rest2 =>
      have hflat : ((w2 :: rest2).flatMap fields) ≠ [] := by
        obtain ⟨_, hfw2⟩ := h w2 (List.mem_cons_of_mem w (List.mem_cons_self _ _))
        show fields w2 ++ _ ≠ []
        intro hc
        exact hfw2 (List.append_eq_nil.mp hc).1
      show goJoin [32] (fields w ++ (w2 :: rest2).flatMap fields) = _
      rw [goJoin_append_space hfw hflat, hjw,
        ih fun u hu => h u (List.mem_cons_of_mem w hu),
        goJoin_cons_of_ne
          (show w2 :: rest2 ≠ ([] : List (List Nat)) from by simp)]

lemma normalizeText_eq_join (s : List Nat) :
    normalizeText s = goJoin [32] (normWords s) := by
  show collapseSpace (goJoin [32] (normWords s)) = _
  exact collapseSpace_id (okString_join (fun w hw => (normWords_spec s w hw).1))

lemma normalizeText_idem (s : List Nat) :
    normalizeText (normalizeText s) = normalizeText s := by
  have hws := normWords_spec s
  have hout := normalizeText_eq_join s
  rw [hout]
  have hA : nfkdStr (goJoin [32] (normWords s)) = goJoin [32] (normWords s) := by
    apply flatMap_id_of_mem
    intro c hc
    rcases mem_goJoin_space hc with h1 | ⟨w, hw, hcw⟩
    · rw [h1]
      decide
    · exact ((hws w hw).1.2.1 c hcw).1
  have hB : spaceFix (goJoin [32] (normWords s)) = goJoin [32] (normWords s) := by
    apply map_id_of_mem
    intro c hc
    rcases mem_goJoin_space hc with h1 | ⟨w, hw, hcw⟩
    · rw [h1]
      decide
    · by_cases hsp : goIsSpace c = true
      · rw [if_pos hsp, ((hws w hw).1.2.1 c hcw).2.2 hsp]
      · rw [if_neg hsp]
  have hC : trimSpace (goJoin [32] (normWords s)) = goJoin [32] (normWords s) :=
    trimSpace_eq_self
      (goJoin_head_nonspace (fun w hw => (hws w hw).1))
      (goJoin_getLast_nonspace _ (fun w hw => (hws w hw).1))
  have hD : (goJoin [32] (normWords s)).map goToLower
      = goJoin [32] (normWords s) := by
    apply map_id_of_mem
    intro c hc
    rcases mem_goJoin_space hc with h1 | ⟨w, hw, hcw⟩
    · rw [h1]
      decide
    · exact ((hws w hw).1.2.1 c hcw).2.1
  have hE := fields_goJoin (normWords s)
  have hF : ((normWords s).flatMap fields).map expandWord
      = (normWords s).flatMap fields := by
    apply map_id_of_mem
    intro u hu
    obtain ⟨w, hw, huw⟩ := List.mem_flatMap.mp hu
    have hlu := (hws w hw).2.1 u huw
    unfold expandWord
    rw [hlu]
    rfl
  have hG : goJoin [32] ((normWords s).flatMap fields)
      = goJoin [32] (normWords s) :=
    goJoin_flatMap _ (fun w hw => ⟨(hws w hw).2.2.1, (hws w hw).2.2.2⟩)
  have hH : collapseSpace (goJoin [32] (normWords s))
      = goJoin [32] (normWords s) :=
    collapseSpace_id (okString_join (fun w hw => (hws w hw).1))
  show collapseSpace (goJoin [32]
    ((fields ((trimSpace (spaceFix
      (nfkdStr (goJoin [32] (normWords s))))).map goToLower)).map
        expandWord)) = _
  rw [hA, hB, hC, hD, hE, hF, hG, hH]

/-- C4: `normalizeText` is total (a function defined on every string,
Unicode code points, whitespace runs and contractions included) and
idempotent: normalizing twice equals normalizing once. -/
theorem normalize_idempotent (x : List Nat) :
    normalizeText (normalizeText x) = normalizeText x :=
  normalizeText_idem x

lemma prepare_wf {kws : List (List Nat)} {e : keywordEntry}
    (he : e ∈ prepareKeywordEntries kws) : entryWellFormed e := by
  obtain ⟨kw, _, hif⟩ := List.mem_filterMap.mp he
  dsimp only at hif
  by_cases hz : normalizeText kw = []
  · rw [if_pos hz] at hif
    exact absurd hif (by simp)
  · rw [if_neg hz] at hif
    have h2 : (⟨normalizeText kw, [92, 98] ++ quoteMeta (normalizeText kw)
        ++ [92, 98]⟩ : keywordEntry) = e := by injection hif
    rw [← h2]
    exact ⟨hz, normalizeText_idem kw, rfl⟩

lemma mem_addCategory_elim {sc : StageCategories} {ce c : CategoryEntry}
    (h : c ∈ (addCategory sc ce).Hardcoded ++ (addCategory sc ce).Prioritized) :
    c ∈ sc.Hardcoded ++ sc.Prioritized ∨ c = ce := by
  unfold addCategory at h
  by_cases hh : ce.Info.IsHardcoded
  · rw [if_pos hh] at h
    simp only [List.mem_append] at h ⊢
    rcases h with (h1 | h1) | h1
    · exact Or.inl (Or.inl h1)
    · exact Or.inr (by simpa using h1)
    · exact Or.inl (Or.inr h1)
  · rw [if_neg hh] at h
    simp only [List.mem_append] at h ⊢
    rcases h with h1 | h1 | h1
    · exact Or.inl (Or.inl h1)
    · exact Or.inl (Or.inr h1)
    · exact Or.inr (by simpa using h1)

lemma addToStageMap_cons_pos {k stage : List Nat} {sc : StageCategories}
    {rest : List (List Nat × StageCategories)} {ce : CategoryEntry}
    (hk : k = stage) :
    addToStageMap ((k, sc) :: rest) stage ce =
      (k, addCategory sc ce) :: rest := by
  show (if k = stage then _ else _) = _
  rw [if_pos hk]

lemma addToStageMap_cons_neg {k stage : List Nat} {sc : StageCategories}
    {rest : List (List Nat × StageCategories)} {ce : CategoryEntry}
    (hk : ¬k = stage) :
    addToStageMap ((k, sc) :: rest) stage ce =
      (k, sc) :: addToStageMap rest stage ce := by
  show (if k = stage then _ else _) = _
  rw [if_neg hk]

lemma addToStageMap_wf :
    ∀ (m : List (List Nat × StageCategories)) (stage : List Nat)
      (ce : CategoryEntry), matcherEntriesWF m →
      (∀ e ∈ ce.Keywords, entryWellFormed e) →
      matcherEntriesWF (addToStageMap m stage ce) := by
  intro m
  induction m with
  | nil =>
    intro stage ce _ hce kv hkv c hc e he
    simp only [addToStageMap, List.mem_singleton] at hkv
    rw [hkv] at hc
    rcases mem_addCategory_elim hc with h1 | h1
    · exact absurd h1 (by simp)
    · rw [h1] at he
      exact hce e he
  | cons kv0 rest ih =>
    intro stage ce hm hce kv hkv c hc e he
    obtain ⟨k, sc⟩ := kv0
    have hm0 := hm (k, sc) (List.mem_cons_self _ _)
    by_cases hk : k = stage
    · rw [addToStageMap_cons_pos hk] at hkv
      rcases List.mem_cons.mp hkv with h1 | h1
      · rw [h1] at hc
        rcases mem_addCategory_elim hc with h2 | h2
        · exact hm0 c h2 e he
        · rw [h2] at he
          exact hce e he
      · exact hm kv (List.mem_cons_of_mem _ h1) c hc e he
    · rw [addToStageMap_cons_neg hk] at hkv
      rcases List.mem_cons.mp hkv with h1 | h1
      · rw [h1] at hc
        exact hm0 c hc e he
      · exact ih stage ce
          (fun kv2 hkv2 => hm kv2 (List.mem_cons_of_mem _ hkv2)) hce
          kv h1 c hc e he

lemma buildStep_wf (m : List (List Nat × StageCategories))
    (kv : List Nat × GoVal) (hm : matcherEntriesWF m) :
    matcherEntriesWF (buildStep m kv) := by
  cases hp : parseCategoryName kv.1 with
  | none => simpa only [buildStep, hp] using hm
  | some info =>
    simp only [buildStep, hp]
    by_cases hz : (convertToStringSlice kv.2).length = 0
    · rw [if_pos hz]
      exact hm
    · rw [if_neg hz]
      exact addToStageMap_wf m info.Stage _ hm
        (fun e he => prepare_wf he)

lemma foldl_buildStep_wf (cfg : List (List Nat × GoVal)) :
    ∀ (m : List (List Nat × StageCategories)), matcherEntriesWF m →
      matcherEntriesWF (cfg.foldl buildStep m) := by
  induction cfg with
  | nil => intro m hm; exact hm
  | cons kv rest ih => intro m hm; exact ih _ (buildStep_wf m kv hm)

lemma sortStages_wf (m : List (List Nat × StageCategories))
    (hm : matcherEntriesWF m) : matcherEntriesWF (sortStages m) := by
  intro kv hkv c hc e he
  obtain ⟨kv0, hkv0, hmap⟩ := List.mem_map.mp hkv
  have hm0 := hm kv0 hkv0
  refine hm0 c ?_ e he
  rw [← hmap] at hc
  simp only [List.mem_append] at hc ⊢
  rcases hc with h1 | h1
  · exact Or.inl h1
  · exact Or.inr
      ((List.Perm.mem_iff (List.perm_insertionSort _ _)).mp h1)

/-- C10: in every matcher built by `NewKeywordMatcher`, every stored
keyword entry's raw text is non-empty and a fixed point of
`normalizeText`, and its compiled pattern is the word-boundary-bounded,
metacharacter-escaped literal of the raw text — so the exact tier always
compares two normalized strings. -/
theorem keyword_entries_normalized (cfg : List (List Nat × GoVal))
    (stage : List Nat) (sd : StageCategories)
    (hsd : (NewKeywordMatcher cfg).stageMap.lookup stage = some sd)
    (c : CategoryEntry) (hc : c ∈ sd.Hardcoded ++ sd.Prioritized)
    (e : keywordEntry) (he : e ∈ c.Keywords) :
    e.raw ≠ [] ∧ normalizeText e.raw = e.raw ∧
      e.pattern = [92, 98] ++ quoteMeta e.raw ++ [92, 98] := by
  have hwf : matcherEntriesWF (NewKeywordMatcher cfg).stageMap :=
    sortStages_wf _ (foldl_buildStep_wf cfg [] (by
      intro kv hkv
      exact absurd hkv (by simp)))
  have hmem : (stage, sd) ∈ (NewKeywordMatcher cfg).stageMap :=
    lookup_mem hsd
  exact hwf (stage, sd) hmem c hc e he

/-- Witness for C10: a keyword with mixed case and extra whitespace is
stored normalized with its escaped word-boundary pattern. -/
theorem keyword_entries_normalized_witness :
    (NewKeywordMatcher [(str "kw_p1_s1",
        GoVal.sVal (str "  Do Not  CALL "))]).stageMap.lookup (str "s1") =
      some ⟨[], [⟨⟨str "kw", 1, str "s1", false, str "KW"⟩,
        [⟨str "do not call",
          [92, 98] ++ quoteMeta (str "do not call") ++ [92, 98]⟩]⟩]⟩ ∧
    (str "do not call" ≠ [] ∧
      normalizeText (str "do not call") = str "do not call" ∧
      ([92, 98] ++ quoteMeta (str "do not call") ++ [92, 98] : List Nat) =
        [92, 98] ++ quoteMeta (str "do not call") ++ [92, 98]) := by
  refine ⟨by decide, ?_⟩
  exact keyword_entries_normalized
    [(str "kw_p1_s1", GoVal.sVal (str "  Do Not  CALL "))]
    (str "s1")
    ⟨[], [⟨⟨str "kw", 1, str "s1", false, str "KW"⟩,
      [⟨str "do not call",
        [92, 98] ++ quoteMeta (str "do not call") ++ [92, 98]⟩]⟩]⟩
    (by decide)
    ⟨⟨str "kw", 1, str "s1", false, str "KW"⟩,
      [⟨str "do not call",
        [92, 98] ++ quoteMeta (str "do not call") ++ [92, 98]⟩]⟩
    (by decide)
    ⟨str "do not call",
      [92, 98] ++ quoteMeta (str "do not call") ++ [92, 98]⟩
    (by decide)
